import Mathlib

/-!
Verification of the identifier-generation and cache-coherent persistence core of
the KBoxLabel repository.

Part 1 embeds `src/common/god/ksnowflake.py` (class `KSnowflake`).
Part 2 embeds `src/common/god/korm_base.py` (class `KOrmBase`) together with the
thread session of `src/common/god/session.py` and the optional redis cache
(`cosmos.redis`).

Modelling conventions for the Python source:
* machine integers are unbounded in Python, so all arithmetic is over `Int`/`Nat`
  with no wrap-around;
* the wall clock (`time.time() * 1000`) is modelled as a list of millisecond
  readings that successive calls of `_get_current_timestamp` consume;
* the cryptographic random draw `secrets.randbelow(1024)` is an oracle: the
  drawn value is a parameter of the embedded function;
* `raise` is modelled by an explicit error result that carries the object state
  as it was when the exception left the method (CPython mutates attributes in
  program order, so state mutated before the `raise` stays mutated).
-/

set_option maxHeartbeats 1600000

namespace KBox

/-! ### Part 1: `KSnowflake` (src/common/god/ksnowflake.py)

`self.sequence` and `self.last_timestamp` are the mutable state
(`sequence = 0`, `last_timestamp = -1` in `__init__`).  The class epoch
`_CLS_EPOCH_` is the parameter `epoch` below. -/

structure KSnowflake where
  sequence : Nat
  last_timestamp : Int
  deriving DecidableEq, Repr

/-- `KSnowflake.__init__`. -/
def KSnowflake.init : KSnowflake := ⟨0, -1⟩

/-- `_til_next_millis`: read the clock, and keep re-reading while the reading is
`<= last_timestamp`; returns the first strictly larger reading together with the
unread rest of the clock, or `none` if the modelled clock list runs out. -/
def til_next_millis (last_timestamp : Int) : List Int → Option (Int × List Int)
  | [] => none
  | t :: rest =>
    if t ≤ last_timestamp then til_next_millis last_timestamp rest
    else some (t, rest)

/-- The value `(timestamp - epoch) << 22 | machine_id << 12 | sequence` returned
by `gen_kid` (the source shifts the random draw: `machine_id = randbelow(1024) << 12`).
On Python ints `x << 22` is exactly `x * 2 ^ 22`, and since
`machine_id << 12 | sequence < 2 ^ 22` is non-negative while `x * 2 ^ 22` has its
low 22 bits clear (also in two's complement for negative `x`), the outer `|` is
exactly `+`.  The inner `<<`/`|` on the two non-negative operands is kept as
`Nat` bit operations. -/
def compose_kid (epoch timestamp : Int) (mid seq : Nat) : Int :=
  (timestamp - epoch) * 2 ^ 22 + (((mid <<< 12) ||| seq : Nat) : Int)

/-- Result of one `gen_kid` call.  `clockRollback` is the
`raise Exception(f"时钟回拨 {delta} 毫秒")` branch and carries the state the
object has when the exception propagates (the method mutates nothing before this
`raise`).  `starved` is a model artifact: the finite clock list was exhausted
inside the `_til_next_millis` spin (the Python loop would still be spinning). -/
inductive GenResult where
  | ok (id : Int) (state : KSnowflake) (clock : List Int)
  | clockRollback (behind : Int) (state : KSnowflake) (clock : List Int)
  | starved (state : KSnowflake)
  deriving DecidableEq, Repr

/-- `KSnowflake.gen_kid` (body under `self.lock`), for one call that draws
`mid = secrets.randbelow(1024)` and reads the given clock. -/
def gen_kid (epoch : Int) (s : KSnowflake) (mid : Nat) : List Int → GenResult
  | [] => .starved s
  | timestamp :: rest =>
    if timestamp < s.last_timestamp then
      .clockRollback (s.last_timestamp - timestamp) s rest
    else if timestamp = s.last_timestamp then
      -- self.sequence = (self.sequence + 1) & 0xFFF
      let seq := (s.sequence + 1) &&& 4095
      if seq = 0 then
        match til_next_millis s.last_timestamp rest with
        | none => .starved ⟨seq, s.last_timestamp⟩
        | some (ts, rest') => .ok (compose_kid epoch ts mid seq) ⟨seq, ts⟩ rest'
      else
        .ok (compose_kid epoch timestamp mid seq) ⟨seq, timestamp⟩ rest
    else
      .ok (compose_kid epoch timestamp mid 0) ⟨0, timestamp⟩ rest

/-- A sequence of `gen_kid` calls on one instance: one machine-id draw per call,
all calls reading the same clock stream.  Returns the ids in call order with the
final state and unread clock, or `none` if some call did not return normally. -/
def genRun (epoch : Int) (s : KSnowflake) :
    List Nat → List Int → Option (List Int × KSnowflake × List Int)
  | [], clock => some ([], s, clock)
  | m :: ms, clock =>
    match gen_kid epoch s m clock with
    | .ok id s' clock' =>
      match genRun epoch s' ms clock' with
      | some (ids, s'', c'') => some (id :: ids, s'', c'')
      | none => none
    | _ => none

/-- Decoded timestamp field of an id (bits 22..62): `id / 2 ^ 22` over `Int`. -/
def dts (id : Int) : Int := id / 2 ^ 22

/-- Decoded sequence field of an id (low 12 bits): `id % 4096` over `Int`. -/
def dseq (id : Int) : Int := id % 4096

/-- The `(last_timestamp, sequence)` state key, linearised; it strictly
increases across successful calls. -/
def skey (s : KSnowflake) : Int := s.last_timestamp * 4096 + s.sequence

/-! #### Arithmetic facts about the id layout -/

theorem nat_mul_pow_lor_eq_add :
    ∀ (n : Nat) (a b : Nat), b < 2 ^ n → (a * 2 ^ n) ||| b = a * 2 ^ n + b := by
  intro n
  induction n with
  | zero =>
    intro a b hb
    interval_cases b
    simp
  | succ n ih =>
    intro a b hb
    have hdecomp := Nat.bit_decomp b
    have hb2 : b.div2 < 2 ^ n := by
      have := Nat.bodd_add_div2 b
      have hlt : (2 : Nat) ^ (n + 1) = 2 * 2 ^ n := by ring
      omega
    calc a * 2 ^ (n + 1) ||| b
        = Nat.bit false (a * 2 ^ n) ||| Nat.bit b.bodd b.div2 := by
          rw [hdecomp]
          congr 1
          simp [Nat.bit_val]
          ring
      _ = Nat.bit (false || b.bodd) (a * 2 ^ n ||| b.div2) := by
          rw [Nat.lor_bit]
      _ = Nat.bit b.bodd (a * 2 ^ n + b.div2) := by rw [ih a b.div2 hb2]; simp
      _ = a * 2 ^ (n + 1) + b := by
          have := Nat.bodd_add_div2 b
          rw [Nat.bit_val]
          have hp : a * 2 ^ (n + 1) = 2 * (a * 2 ^ n) := by ring
          omega

theorem mid_lor_seq (mid seq : Nat) (hseq : seq < 4096) :
    ((mid <<< 12) ||| seq) = mid * 4096 + seq := by
  have h12 : (mid <<< 12) = mid * 2 ^ 12 := Nat.shiftLeft_eq mid 12
  rw [h12]
  exact nat_mul_pow_lor_eq_add 12 mid seq (by norm_num at hseq ⊢; omega)

theorem compose_kid_linear (epoch timestamp : Int) (mid seq : Nat)
    (hseq : seq < 4096) :
    compose_kid epoch timestamp mid seq =
      (timestamp - epoch) * 2 ^ 22 + (mid * 4096 + seq : Nat) := by
  unfold compose_kid
  rw [mid_lor_seq mid seq hseq]
  norm_cast

theorem compose_kid_dts (epoch timestamp : Int) (mid seq : Nat)
    (hmid : mid < 1024) (hseq : seq < 4096) :
    dts (compose_kid epoch timestamp mid seq) = timestamp - epoch := by
  rw [compose_kid_linear epoch timestamp mid seq hseq]
  unfold dts
  have : (mid * 4096 + seq : Nat) < 2 ^ 22 := by omega
  push_cast
  omega

theorem compose_kid_dseq (epoch timestamp : Int) (mid seq : Nat)
    (hseq : seq < 4096) :
    dseq (compose_kid epoch timestamp mid seq) = seq := by
  rw [compose_kid_linear epoch timestamp mid seq hseq]
  unfold dseq
  push_cast
  omega

/-- The id determines `(timestamp - epoch, machine id, sequence)` uniquely. -/
theorem compose_kid_inj (epoch t1 t2 : Int) (m1 m2 s1 s2 : Nat)
    (hm1 : m1 < 1024) (hm2 : m2 < 1024) (hs1 : s1 < 4096) (hs2 : s2 < 4096)
    (h : compose_kid epoch t1 m1 s1 = compose_kid epoch t2 m2 s2) :
    t1 = t2 ∧ m1 = m2 ∧ s1 = s2 := by
  rw [compose_kid_linear epoch t1 m1 s1 hs1,
      compose_kid_linear epoch t2 m2 s2 hs2] at h
  push_cast at h
  constructor
  · omega
  constructor
  · omega
  · omega

/-! #### Behaviour of one call -/

theorem til_next_millis_gt (last : Int) :
    ∀ (clock : List Int) (ts : Int) (rest : List Int),
      til_next_millis last clock = some (ts, rest) → last < ts := by
  intro clock
  induction clock with
  | nil => intro ts rest h; simp [til_next_millis] at h
  | cons t c ih =>
    intro ts rest h
    by_cases hle : t ≤ last
    · simp [til_next_millis, hle] at h
      exact ih ts rest h
    · simp [til_next_millis, hle] at h
      omega

/-- Shape of every successful call: the returned id is composed from the new
state's `(last_timestamp, sequence)`, the new sequence is in range, and the
state key strictly increases. -/
theorem gen_kid_ok (epoch : Int) (s : KSnowflake) (mid : Nat)
    (clock : List Int) (id : Int) (s' : KSnowflake) (clock' : List Int)
    (hseq : s.sequence < 4096)
    (h : gen_kid epoch s mid clock = .ok id s' clock') :
    id = compose_kid epoch s'.last_timestamp mid s'.sequence ∧
      s'.sequence < 4096 ∧ skey s < skey s' := by
  match clock with
  | [] => simp [gen_kid] at h
  | timestamp :: rest =>
    by_cases h1 : timestamp < s.last_timestamp
    · simp [gen_kid, h1] at h
    · by_cases h2 : timestamp = s.last_timestamp
      · have hmod : (s.sequence + 1) &&& 4095 = (s.sequence + 1) % 4096 := by
          have := Nat.and_pow_two_sub_one_eq_mod (s.sequence + 1) 12
          norm_num at this
          exact this
        by_cases h3 : (s.sequence + 1) &&& 4095 = 0
        · rw [hmod] at h3
          simp only [gen_kid, if_neg h1, if_pos h2, hmod, if_pos h3] at h
          match htn : til_next_millis s.last_timestamp rest with
          | none => rw [htn] at h; simp at h
          | some (ts, rest') =>
            rw [htn] at h
            simp at h
            obtain ⟨hid, hs', hc'⟩ := h
            have hgt := til_next_millis_gt s.last_timestamp rest ts rest' htn
            subst hs'
            refine ⟨by rw [← hid, h3], Nat.mod_lt _ (by norm_num), ?_⟩
            simp only [skey]
            omega
        · rw [hmod] at h3
          simp only [gen_kid, if_neg h1, if_pos h2, hmod, if_neg h3] at h
          simp at h
          obtain ⟨hid, hs', hc'⟩ := h
          subst hs'
          have hlt : (s.sequence + 1) % 4096 < 4096 := Nat.mod_lt _ (by norm_num)
          refine ⟨by rw [← hid], hlt, ?_⟩
          simp only [skey]
          omega
      · simp only [gen_kid, if_neg h1, if_neg h2] at h
        simp at h
        obtain ⟨hid, hs', hc'⟩ := h
        subst hs'
        refine ⟨by rw [← hid], by norm_num, ?_⟩
        simp [skey]
        omega

/-- A call that reads a timestamp strictly greater than `last_timestamp`
(the "different millisecond" branch: sequence resets to 0). -/
theorem gen_kid_new_ms (e T : Int) (m : Nat) (s : KSnowflake) (c : List Int)
    (h : s.last_timestamp < T) :
    gen_kid e s m (T :: c) = .ok (compose_kid e T m 0) ⟨0, T⟩ c := by
  simp only [gen_kid]
  rw [if_neg (by omega), if_neg (by omega)]

/-- A call that reads the same millisecond again, without exhausting the
sequence: the sequence is incremented. -/
theorem gen_kid_same_ms (e T : Int) (m n : Nat) (c : List Int)
    (hn : n + 1 < 4096) :
    gen_kid e ⟨n, T⟩ m (T :: c) = .ok (compose_kid e T m (n + 1)) ⟨n + 1, T⟩ c := by
  have h1 : (n + 1) &&& 4095 = n + 1 := by
    have h := Nat.and_pow_two_sub_one_eq_mod (n + 1) 12
    norm_num at h
    omega
  simp only [gen_kid, h1]
  simp only [lt_self_iff_false, if_false, if_pos]
  rw [if_neg (by omega)]

/-- A call that reads the same millisecond with the sequence at 4095: the
sequence wraps to 0 and the call spin-waits via `_til_next_millis`. -/
theorem gen_kid_wrap (e T : Int) (m : Nat) (c : List Int) (ts : Int)
    (rest : List Int) (h : til_next_millis T c = some (ts, rest)) :
    gen_kid e ⟨4095, T⟩ m (T :: c) = .ok (compose_kid e ts m 0) ⟨0, ts⟩ rest := by
  have h0 : ((4095 : Nat) + 1) &&& 4095 = 0 := by decide
  simp only [gen_kid, h0]
  simp only [lt_self_iff_false, if_false, if_pos]
  simp only [if_pos rfl, h]

/-! #### Run-level lemmas -/

/-- Linearised decode of an id: `(timestamp field) * 4096 + sequence field`. -/
def dkey (id : Int) : Int := dts id * 4096 + dseq id

theorem dkey_compose (e ts : Int) (m q : Nat) (hm : m < 1024) (hq : q < 4096) :
    dkey (compose_kid e ts m q) = (ts - e) * 4096 + q := by
  unfold dkey
  rw [compose_kid_dts e ts m q hm hq, compose_kid_dseq e ts m q hq]

theorem genRun_chain (epoch : Int) :
    ∀ (mids : List Nat) (s : KSnowflake) (clock ids : List Int)
      (sF : KSnowflake) (cF : List Int),
      s.sequence < 4096 → (∀ m ∈ mids, m < 1024) →
      genRun epoch s mids clock = some (ids, sF, cF) →
      List.Chain' (· < ·) ((skey s - 4096 * epoch) :: ids.map dkey) := by
  intro mids
  induction mids with
  | nil =>
    intro s clock ids sF cF hs hm h
    simp [genRun] at h
    simp [h.1]
  | cons m ms ih =>
    intro s clock ids sF cF hs hm h
    rw [genRun] at h
    match hk : gen_kid epoch s m clock with
    | .ok id s' clock' =>
      simp only [hk] at h
      match hr : genRun epoch s' ms clock' with
      | some (ids', s'', c'') =>
        simp only [hr] at h
        simp at h
        obtain ⟨hids, _, _⟩ := h
        obtain ⟨hid, hs', hkey⟩ :=
          gen_kid_ok epoch s m clock id s' clock' hs hk
        have hm' : m < 1024 := hm m (by simp)
        have hchain := ih s' clock' ids' s'' c'' hs'
          (fun x hx => hm x (by simp [hx])) hr
        have hdk : dkey id = skey s' - 4096 * epoch := by
          rw [hid, dkey_compose epoch s'.last_timestamp m s'.sequence hm' hs']
          simp [skey]
          ring
        rw [← hids]
        simp only [List.map_cons]
        rw [hdk]
        exact List.chain'_cons.mpr ⟨by omega, hchain⟩
      | none => simp only [hr] at h; exact Option.noConfusion h
    | .clockRollback b s' c' => simp only [hk] at h; exact Option.noConfusion h
    | .starved s' => simp only [hk] at h; exact Option.noConfusion h

/-- C4: every successful sequence of `gen_kid` calls on one instance returns
pairwise distinct identifiers (for any number of calls, so in particular for
any `N ≤ 10 ^ 5`).  `mids` are the per-call random machine-id draws (each
`< 1024` as `secrets.randbelow(1024)` guarantees), and the clock readings never
decrease. -/
theorem ksnowflake_c4_ids_distinct (epoch : Int) (mids : List Nat)
    (clock ids : List Int) (sF : KSnowflake) (cF : List Int)
    (hm : ∀ m ∈ mids, m < 1024)
    (_hclock : clock.Chain' (· ≤ ·))
    (hrun : genRun epoch .init mids clock = some (ids, sF, cF)) :
    ids.Pairwise (· ≠ ·) := by
  have hchain := genRun_chain epoch mids .init clock ids sF cF
    (by norm_num [KSnowflake.init]) hm hrun
  have htail : List.Chain' (· < ·) (ids.map dkey) := hchain.tail
  have hpw : (ids.map dkey).Pairwise (· < ·) :=
    List.chain'_iff_pairwise.mp htail
  rw [List.pairwise_map] at hpw
  exact hpw.imp fun hlt => by intro heq; rw [heq] at hlt; exact lt_irrefl _ hlt

/-- C4 witness: a concrete two-call run. -/
theorem ksnowflake_c4_ids_distinct_witness :
    List.Pairwise (· ≠ ·) [(20975616 : Int), 20979713] := by
  refine ksnowflake_c4_ids_distinct 0 [1, 2] [5, 5] _ ⟨1, 5⟩ [] ?_ ?_ ?_
  · decide
  · simp
  · decide

/-- C7: if the clock reading is strictly below `last_timestamp`, `gen_kid`
raises (`时钟回拨 ... 毫秒`): no id is returned, only the single offending
reading was consumed (no internal retry), and the generator state carried by
the propagating exception is exactly the pre-call state — neither
`last_timestamp` nor `sequence` was updated. -/
theorem ksnowflake_c7_clock_rollback (e : Int) (s : KSnowflake) (m : Nat)
    (t : Int) (c : List Int) (h : t < s.last_timestamp) :
    gen_kid e s m (t :: c) = .clockRollback (s.last_timestamp - t) s c := by
  simp only [gen_kid]
  rw [if_pos h]

/-- C7 witness. -/
theorem ksnowflake_c7_clock_rollback_witness :
    gen_kid 0 ⟨0, 50⟩ 3 [49, 60] = .clockRollback 1 ⟨0, 50⟩ [60] := by
  have h := ksnowflake_c7_clock_rollback 0 ⟨0, 50⟩ 3 49 [60] (by decide)
  simpa using h

/-- C1 counterexample: two successive calls in the same millisecond (epoch 0,
clock stuck at reading 100) whose random machine-id draws are 1023 then 0.
The sequence fields are 0 and 1 and the timestamp fields are equal, yet the
second id is numerically SMALLER than the first
(`419430401 = 100·2²² + 1 < 423620608 = 100·2²² + 1023·2¹²`), refuting
"the second returned id is greater than or equal to the first" and the
"ascending numeric values" part of the concrete scenario. -/
theorem ksnowflake_c1_counterexample :
    gen_kid 0 .init 1023 [100, 100] = .ok 423620608 ⟨0, 100⟩ [100] ∧
    gen_kid 0 ⟨0, 100⟩ 0 [100] = .ok 419430401 ⟨1, 100⟩ [] ∧
    dts 423620608 = 100 ∧ dseq 423620608 = 0 ∧
    dts 419430401 = 100 ∧ dseq 419430401 = 1 ∧
    (419430401 : Int) < 423620608 := by
  refine ⟨by decide, by decide, by decide, by decide, by decide, by decide, by decide⟩

theorem compose_kid_mono_skey (e t1 t2 : Int) (m q1 q2 : Nat)
    (hq1 : q1 < 4096) (hq2 : q2 < 4096)
    (h : t1 * 4096 + q1 < t2 * 4096 + q2) :
    compose_kid e t1 m q1 < compose_kid e t2 m q2 := by
  rw [compose_kid_linear e t1 m q1 hq1, compose_kid_linear e t2 m q2 hq2]
  push_cast
  omega

/-- C1 amended: the guarantee holds once the per-call random machine tags are
equal (e.g. if the tag were drawn once per generator, as Snowflake intends):
(1) for two successive successful calls with the same machine-id draw the
second id is strictly greater than the first; (2) in the concrete scenario
(three calls at simulated time epoch + 100 ms, equal draws) the sequence
fields are 0, 1, 2, all timestamp fields decode to 100, and the ids ascend. -/
theorem ksnowflake_c1_amended :
    (∀ (e : Int) (m : Nat) (s : KSnowflake) (clock : List Int)
       (id1 : Int) (s1 : KSnowflake) (c1 : List Int)
       (id2 : Int) (s2 : KSnowflake) (c2 : List Int),
       s.sequence < 4096 → m < 1024 →
       gen_kid e s m clock = .ok id1 s1 c1 →
       gen_kid e s1 m c1 = .ok id2 s2 c2 →
       id1 < id2) ∧
    (∀ (e : Int) (m : Nat), 0 ≤ e → m < 1024 →
       genRun e .init [m, m, m] [e + 100, e + 100, e + 100] =
         some ([compose_kid e (e + 100) m 0, compose_kid e (e + 100) m 1,
                compose_kid e (e + 100) m 2], ⟨2, e + 100⟩, []) ∧
       dseq (compose_kid e (e + 100) m 0) = 0 ∧
       dseq (compose_kid e (e + 100) m 1) = 1 ∧
       dseq (compose_kid e (e + 100) m 2) = 2 ∧
       dts (compose_kid e (e + 100) m 0) = 100 ∧
       dts (compose_kid e (e + 100) m 1) = 100 ∧
       dts (compose_kid e (e + 100) m 2) = 100 ∧
       compose_kid e (e + 100) m 0 < compose_kid e (e + 100) m 1 ∧
       compose_kid e (e + 100) m 1 < compose_kid e (e + 100) m 2) := by
  constructor
  · intro e m s clock id1 s1 c1 id2 s2 c2 hs hm h1 h2
    obtain ⟨hid1, hs1, hk1⟩ := gen_kid_ok e s m clock id1 s1 c1 hs h1
    obtain ⟨hid2, hs2, hk2⟩ := gen_kid_ok e s1 m c1 id2 s2 c2 hs1 h2
    rw [hid1, hid2]
    exact compose_kid_mono_skey e s1.last_timestamp s2.last_timestamp m
      s1.sequence s2.sequence hs1 hs2 (by simp [skey] at hk2; omega)
  · intro e m he hm
    have hstep1 : gen_kid e .init m [e + 100, e + 100, e + 100] =
        .ok (compose_kid e (e + 100) m 0) ⟨0, e + 100⟩ [e + 100, e + 100] :=
      gen_kid_new_ms e (e + 100) m .init [e + 100, e + 100]
        (by simp [KSnowflake.init]; omega)
    have hstep2 : gen_kid e ⟨0, e + 100⟩ m [e + 100, e + 100] =
        .ok (compose_kid e (e + 100) m 1) ⟨1, e + 100⟩ [e + 100] :=
      gen_kid_same_ms e (e + 100) m 0 [e + 100] (by norm_num)
    have hstep3 : gen_kid e ⟨1, e + 100⟩ m [e + 100] =
        .ok (compose_kid e (e + 100) m 2) ⟨2, e + 100⟩ [] :=
      gen_kid_same_ms e (e + 100) m 1 [] (by norm_num)
    refine ⟨?_, ?_, ?_, ?_, ?_, ?_, ?_, ?_, ?_⟩
    · rw [genRun]
      simp only [hstep1]
      rw [genRun]
      simp only [hstep2]
      rw [genRun]
      simp only [hstep3]
      rw [genRun]
    · exact compose_kid_dseq e (e + 100) m 0 (by norm_num)
    · exact compose_kid_dseq e (e + 100) m 1 (by norm_num)
    · exact compose_kid_dseq e (e + 100) m 2 (by norm_num)
    · rw [compose_kid_dts e (e + 100) m 0 hm (by norm_num)]; ring
    · rw [compose_kid_dts e (e + 100) m 1 hm (by norm_num)]; ring
    · rw [compose_kid_dts e (e + 100) m 2 hm (by norm_num)]; ring
    · exact compose_kid_mono_skey e (e + 100) (e + 100) m 0 1
        (by norm_num) (by norm_num) (by omega)
    · exact compose_kid_mono_skey e (e + 100) (e + 100) m 1 2
        (by norm_num) (by norm_num) (by omega)

/-- C1 amended witness: the three-call scenario at epoch 0 with machine tag 0. -/
theorem ksnowflake_c1_amended_witness :
    (0 : Int) ≤ 0 ∧ (0 : Nat) < 1024 ∧ dseq (compose_kid 0 (0 + 100) 0 2) = 2 :=
  ⟨by decide, by decide, ((ksnowflake_c1_amended.2 0 0 (by decide) (by decide)).2.2.2.1)⟩

/-- A run of `k` same-millisecond calls from sequence `j`, never exhausting the
sequence: emits sequences `j+1 .. j+k`. -/
theorem genRun_const (e T : Int) (m : Nat) :
    ∀ (k j : Nat), j + k ≤ 4095 → ∀ (rest : List Int),
      genRun e ⟨j, T⟩ (List.replicate k m) (List.replicate k T ++ rest) =
        some (((List.range k).map fun i => compose_kid e T m (j + 1 + i)),
          ⟨j + k, T⟩, rest) := by
  intro k
  induction k with
  | zero =>
    intro j hj rest
    simp [genRun]
  | succ k ih =>
    intro j hj rest
    simp only [List.replicate_succ, List.cons_append]
    rw [genRun]
    have hstep := gen_kid_same_ms e T m j (List.replicate k T ++ rest) (by omega)
    simp only [hstep]
    have hih := ih (j + 1) (by omega) rest
    simp only [hih]
    have hlist : ((List.range (k + 1)).map fun i => compose_kid e T m (j + 1 + i)) =
        compose_kid e T m (j + 1) ::
          ((List.range k).map fun i => compose_kid e T m (j + 1 + 1 + i)) := by
      rw [List.range_succ_eq_map, List.map_cons, List.map_map]
      congr 1
      apply List.map_congr_left
      intro a ha
      simp only [Function.comp_apply]
      congr 1
      omega
    have harith : j + 1 + k = j + (k + 1) := by omega
    rw [hlist, harith]

/-- Running a concatenation of call batches. -/
theorem genRun_append (e : Int) :
    ∀ (ms1 : List Nat) (s : KSnowflake) (ms2 : List Nat) (clock : List Int)
      (ids1 : List Int) (s1 : KSnowflake) (c1 : List Int),
      genRun e s ms1 clock = some (ids1, s1, c1) →
      genRun e s (ms1 ++ ms2) clock =
        (match genRun e s1 ms2 c1 with
         | some (ids2, s2, c2) => some (ids1 ++ ids2, s2, c2)
         | none => none) := by
  intro ms1
  induction ms1 with
  | nil =>
    intro s ms2 clock ids1 s1 c1 h
    simp [genRun] at h
    obtain ⟨h1, h2, h3⟩ := h
    subst h1; subst h2; subst h3
    match hg : genRun e s ms2 clock with
    | some (ids2, s2, c2) => simp
    | none => simp
  | cons m ms ih =>
    intro s ms2 clock ids1 s1 c1 h
    rw [genRun] at h
    rw [List.cons_append, genRun]
    match hk : gen_kid e s m clock with
    | .ok id s' clock' =>
      simp only [hk] at h ⊢
      match hr : genRun e s' ms clock' with
      | some (ids', s'', c'') =>
        simp only [hr] at h
        simp at h
        obtain ⟨h1, h2, h3⟩ := h
        subst h1; subst h2; subst h3
        rw [ih s' ms2 clock' ids' s'' c'' hr]
        match hg : genRun e s'' ms2 c'' with
        | some (ids2, s2, c2) => simp [hg]
        | none => simp [hg]
      | none => simp only [hr] at h; exact Option.noConfusion h
    | .clockRollback b s' c' => simp only [hk] at h; exact Option.noConfusion h
    | .starved s' => simp only [hk] at h; exact Option.noConfusion h

/-- C6: 4097 calls while the clock reads `T` (with two further readings `T`,
`T + 1` available to the spin-wait).  The first 4096 calls return ids with
timestamp field `T - epoch` and sequence fields 0..4095; the 4097th call wraps
the sequence, spin-waits until the clock advances (consuming the extra
readings), and returns an id with timestamp field `T + 1 - epoch` and
sequence 0, leaving the generator at `(sequence 0, last_timestamp T + 1)`. -/
theorem ksnowflake_c6_sequence_exhaustion (e T : Int) (m : Nat)
    (hT : 0 ≤ T) (hm : m < 1024) :
    genRun e .init (List.replicate 4097 m) (List.replicate 4097 T ++ [T, T + 1]) =
      some ((((List.range 4096).map fun i => compose_kid e T m i) ++
          [compose_kid e (T + 1) m 0]), ⟨0, T + 1⟩, []) ∧
    (∀ i : Nat, i < 4096 →
      dts (compose_kid e T m i) = T - e ∧ dseq (compose_kid e T m i) = (i : Int)) ∧
    dts (compose_kid e (T + 1) m 0) = T + 1 - e ∧
    dseq (compose_kid e (T + 1) m 0) = 0 := by
  refine ⟨?_, ?_, ?_, ?_⟩
  · -- split the 4097 calls as 1 + 4095 + 1
    have h1 : (4097 : Nat) = 4096 + 1 := by norm_num
    have h2 : (4096 : Nat) = 4095 + 1 := by norm_num
    have hsplit_m : List.replicate 4097 m =
        m :: (List.replicate 4095 m ++ [m]) := by
      rw [h1, List.replicate_succ, h2, List.replicate_succ']
    have hsplit_T : List.replicate 4097 T ++ [T, T + 1] =
        T :: (List.replicate 4095 T ++ (T :: [T, T + 1])) := by
      rw [h1, List.replicate_succ, h2, List.replicate_succ']
      simp only [List.cons_append, List.append_assoc, List.singleton_append,
        List.nil_append]
    rw [hsplit_m, hsplit_T, genRun]
    have hstep1 : gen_kid e .init m
        (T :: (List.replicate 4095 T ++ (T :: [T, T + 1]))) =
        .ok (compose_kid e T m 0) ⟨0, T⟩
          (List.replicate 4095 T ++ (T :: [T, T + 1])) :=
      gen_kid_new_ms e T m .init _ (by simp [KSnowflake.init]; omega)
    simp only [hstep1]
    have hmid := genRun_const e T m 4095 0 (by omega) (T :: [T, T + 1])
    norm_num at hmid
    have happ := genRun_append e (List.replicate 4095 m) ⟨0, T⟩ [m]
      (List.replicate 4095 T ++ (T :: [T, T + 1]))
      ((List.range 4095).map fun i => compose_kid e T m (1 + i))
      ⟨4095, T⟩ (T :: [T, T + 1]) hmid
    have hlast : genRun e ⟨4095, T⟩ [m] (T :: [T, T + 1]) =
        some ([compose_kid e (T + 1) m 0], ⟨0, T + 1⟩, []) := by
      rw [genRun]
      have hwrap := gen_kid_wrap e T m [T, T + 1] (T + 1) []
        (by simp [til_next_millis])
      simp only [hwrap]
      rw [genRun]
    rw [happ, hlast]
    have hrange : ((List.range 4096).map fun i => compose_kid e T m i) =
        compose_kid e T m 0 ::
          ((List.range 4095).map fun i => compose_kid e T m (1 + i)) := by
      rw [h2, List.range_succ_eq_map, List.map_cons, List.map_map]
      apply congrArg (List.cons (compose_kid e T m 0))
      apply List.map_congr_left
      intro a ha
      simp only [Function.comp_apply]
      congr 1
      omega
    rw [hrange]
    simp only [List.cons_append]
  · intro i hi
    exact ⟨compose_kid_dts e T m i hm hi, compose_kid_dseq e T m i hi⟩
  · exact compose_kid_dts e (T + 1) m 0 hm (by norm_num)
  · exact compose_kid_dseq e (T + 1) m 0 (by norm_num)

/-- C6 witness: instantiation at epoch 0, `T = 0`, machine tag 0. -/
theorem ksnowflake_c6_sequence_exhaustion_witness :
    (0 : Int) ≤ 0 ∧ (0 : Nat) < 1024 ∧
      dts (compose_kid 0 (0 + 1) 0 0) = 0 + 1 - 0 :=
  ⟨by decide, by decide,
    (ksnowflake_c6_sequence_exhaustion 0 0 0 (by decide) (by decide)).2.2.1⟩

/-! ### Part 2: `KOrmBase` (src/common/god/korm_base.py)

Data model.  A persisted record is its mapped columns, in `__table__.columns`
order, as an association list from column name to value; a SQL `NULL` is
`vNone`, and the state after `del self.kid` (`remove_kid_if_none`) is a
missing `"kid"` entry.  The persisted schemas type `kid` as an integer
column, so business keys are `Int` here; Python truthiness of an integer
`kid` is `≠ 0`.

Python strings that this layer constructs or parses are modelled by
provenance: `strftime("%Y-%m-%d %H:%M:%S")` output is `dtStr` (it drops the
`microsecond` field — the format has no `%f`), the `'{0.year:4d}-...'` date
format is `dStr`, `str(Decimal)` is `decStr` (`Decimal(str(d))` reproduces
`d` exactly, per the decimal documentation), and any other string is `raw`.
`strptime` with `"%Y-%m-%d %H:%M:%S"` / `"%Y-%m-%d"` succeeds exactly on the
corresponding formatted strings whose year printed as 4 digits (CPython's
`%Y` pattern is 4 digits, and the `:4d` date format space-pads years below
1000), and reconstructs a datetime with `microsecond = 0`.  A formatted
temporal or decimal string is never equal to one of the tag literals
`"datetime"`/`"date"`/`"Decimal"`. -/

structure PyDateTime where
  year : Nat
  month : Nat
  day : Nat
  hour : Nat
  minute : Nat
  second : Nat
  microsecond : Nat
  deriving DecidableEq, Repr

structure PyDate where
  year : Nat
  month : Nat
  day : Nat
  deriving DecidableEq, Repr

/-- `decimal.Decimal` as its (sign, coefficient digits, exponent) triple;
`str`/`Decimal(...)` round-trip this data exactly. -/
structure PyDecimal where
  sign : Bool
  digits : List Nat
  exponent : Int
  deriving DecidableEq, Repr

inductive StrVal where
  | raw (s : String)
  | dtStr (y mo d h mi s : Nat)
  | dStr (y mo d : Nat)
  | decStr (d : PyDecimal)
  deriving DecidableEq, Repr

/-- Python `==` between one of the modelled strings and a literal (used for
the `value["__type__"] == "datetime"` comparisons): formatted
temporal/decimal strings never equal a tag literal. -/
def strEq (v : StrVal) (t : String) : Bool :=
  match v with
  | .raw s => s == t
  | _ => false

inductive KValue where
  | vNone
  | vInt (i : Int)
  | vStr (s : StrVal)
  | vDatetime (dt : PyDateTime)
  | vDate (d : PyDate)
  | vDecimal (d : PyDecimal)
  deriving DecidableEq, Repr

abbrev Entity := List (String × KValue)

/-- JSON values appearing in cache payloads (the only dicts this layer ever
serializes map string keys to strings, which also covers the corrupted
tag-dict payloads the claims exercise). `json.dumps`/`json.loads` round-trip
these trees. -/
inductive SerVal where
  | sNull
  | sInt (i : Int)
  | sStr (s : StrVal)
  | sDict (entries : List (String × StrVal))
  deriving DecidableEq, Repr

abbrev SerDict := List (String × SerVal)

/-- One column value of `KOrmBase.to_serializable_dict`: `isinstance`
dispatch, `datetime` checked before `date` (datetime is a date subclass);
`strftime("%Y-%m-%d %H:%M:%S")` keeps only whole seconds. -/
def serialize_value : KValue → SerVal
  | .vDatetime dt =>
    .sDict [("__type__", .raw "datetime"),
            ("value", .dtStr dt.year dt.month dt.day dt.hour dt.minute dt.second)]
  | .vDate d =>
    .sDict [("__type__", .raw "date"), ("value", .dStr d.year d.month d.day)]
  | .vDecimal d =>
    .sDict [("__type__", .raw "Decimal"), ("value", .decStr d)]
  | .vNone => .sNull
  | .vInt i => .sInt i
  | .vStr s => .sStr s

/-- `KOrmBase.to_serializable_dict`. -/
def to_serializable_dict (e : Entity) : SerDict :=
  e.map fun p => (p.1, serialize_value p.2)

inductive PyErr where
  | keyError
  | valueError
  | typeError
  | jsonDecodeError
  | businessParamError
  | attributeErrorNone
  | integrityError
  deriving DecidableEq, Repr

/-- `datetime.strptime(s, "%Y-%m-%d %H:%M:%S")`. -/
def strptime_datetime (v : StrVal) : Except PyErr PyDateTime :=
  match v with
  | .dtStr y mo d h mi s =>
    if 1000 ≤ y ∧ y ≤ 9999 then .ok ⟨y, mo, d, h, mi, s, 0⟩ else .error .valueError
  | _ => .error .valueError

/-- `datetime.strptime(s, "%Y-%m-%d").date()`. -/
def strptime_date (v : StrVal) : Except PyErr PyDate :=
  match v with
  | .dStr y mo d =>
    if 1000 ≤ y ∧ y ≤ 9999 then .ok ⟨y, mo, d⟩ else .error .valueError
  | _ => .error .valueError

/-- `Decimal(s)`. -/
def decimal_ctor (v : StrVal) : Except PyErr PyDecimal :=
  match v with
  | .decStr d => .ok d
  | _ => .error .valueError

/-- One field of `KOrmBase.unserializable_from_dict`: a dict value is decoded
through its `__type__` tag (missing tag → `KeyError`; missing `"value"` →
`KeyError`; an unknown tag silently drops the field — `.ok none`); any other
value is taken as-is. -/
def unserialize_value (v : SerVal) : Except PyErr (Option KValue) :=
  match v with
  | .sDict entries =>
    match entries.lookup "__type__" with
    | none => .error .keyError
    | some tag =>
      if strEq tag "datetime" then
        match entries.lookup "value" with
        | none => .error .keyError
        | some sv => (strptime_datetime sv).map fun dt => some (.vDatetime dt)
      else if strEq tag "date" then
        match entries.lookup "value" with
        | none => .error .keyError
        | some sv => (strptime_date sv).map fun d => some (.vDate d)
      else if strEq tag "Decimal" then
        match entries.lookup "value" with
        | none => .error .keyError
        | some sv => (decimal_ctor sv).map fun d => some (.vDecimal d)
      else .ok none
  | .sNull => .ok (some .vNone)
  | .sInt i => .ok (some (.vInt i))
  | .sStr s => .ok (some (.vStr s))

/-- `KOrmBase.unserializable_from_dict`: decode each field in dict order into
`args`, then `cls(**args)` (the declarative constructor installed by
`@as_declarative` assigns the keyword arguments as the mapped attributes). -/
def unserializable_from_dict : SerDict → Except PyErr Entity
  | [] => .ok []
  | (k, v) :: rest =>
    match unserialize_value v with
    | .error err => .error err
    | .ok none => unserializable_from_dict rest
    | .ok (some kv) =>
      match unserializable_from_dict rest with
      | .error err => .error err
      | .ok tail => .ok ((k, kv) :: tail)

instance {ε α : Type} [DecidableEq ε] [DecidableEq α] :
    DecidableEq (Except ε α) := fun a b =>
  match a, b with
  | .ok x, .ok y =>
    if h : x = y then isTrue (congrArg Except.ok h)
    else isFalse fun hc => h (Except.ok.inj hc)
  | .error x, .error y =>
    if h : x = y then isTrue (congrArg Except.error h)
    else isFalse fun hc => h (Except.error.inj hc)
  | .ok _, .error _ => isFalse fun hc => Except.noConfusion hc
  | .error _, .ok _ => isFalse fun hc => Except.noConfusion hc

/-- Values whose serialization is exact: anything except a datetime with a
nonzero microsecond part, with temporal years restricted to 1000..9999 (the
4-digit band of `%Y`/`:4d` round-tripping; Python dates cap at 9999). -/
def exactValue : KValue → Bool
  | .vDatetime dt =>
    (dt.microsecond == 0) && decide (1000 ≤ dt.year) && decide (dt.year ≤ 9999)
  | .vDate d => decide (1000 ≤ d.year) && decide (d.year ≤ 9999)
  | _ => true

/-- Value-level exact round trip. -/
theorem unser_ser_exact (v : KValue) (hv : exactValue v = true) :
    unserialize_value (serialize_value v) = .ok (some v) := by
  match v with
  | .vNone => rfl
  | .vInt i => rfl
  | .vStr s => rfl
  | .vDatetime dt =>
    obtain ⟨y, mo, d, h, mi, s, micro⟩ := dt
    simp only [exactValue, Bool.and_eq_true, beq_iff_eq, decide_eq_true_eq] at hv
    obtain ⟨⟨hmicro, hy1⟩, hy2⟩ := hv
    subst hmicro
    show (strptime_datetime (.dtStr y mo d h mi s)).map
        (fun dt => some (KValue.vDatetime dt)) = _
    simp [strptime_datetime, hy1, hy2, Except.map]
  | .vDate d =>
    obtain ⟨y, mo, dd⟩ := d
    simp only [exactValue, Bool.and_eq_true, decide_eq_true_eq] at hv
    obtain ⟨hy1, hy2⟩ := hv
    show (strptime_date (.dStr y mo dd)).map
        (fun d => some (KValue.vDate d)) = _
    simp [strptime_date, hy1, hy2, Except.map]
  | .vDecimal d => rfl

/-- C5 counterexample: a record holding a datetime with `microsecond = 500000`
round-trips to the same instant truncated to whole seconds — the strftime
format `"%Y-%m-%d %H:%M:%S"` has no `%f`, so full datetime precision is lost
and the decoded record differs from the original. -/
theorem korm_c5_counterexample :
    unserializable_from_dict
        (to_serializable_dict [("t", KValue.vDatetime ⟨2020, 1, 1, 0, 0, 0, 500000⟩)]) =
      .ok [("t", KValue.vDatetime ⟨2020, 1, 1, 0, 0, 0, 0⟩)] ∧
    [("t", KValue.vDatetime ⟨2020, 1, 1, 0, 0, 0, 0⟩)] ≠
      [("t", KValue.vDatetime ⟨2020, 1, 1, 0, 0, 0, 500000⟩)] := by
  exact ⟨by decide, by decide⟩

/-- C5 amended: the tagged codec round-trips a record exactly in every column
for integer, string, None, date, Decimal and datetime values — provided each
datetime has whole-second precision (`microsecond = 0`), since the format
truncates sub-second precision (and temporal years lie in 1000..9999). -/
theorem korm_c5_amended (e : Entity) (h : ∀ p ∈ e, exactValue p.2 = true) :
    unserializable_from_dict (to_serializable_dict e) = .ok e := by
  induction e with
  | nil => rfl
  | cons p rest ih =>
    obtain ⟨k, v⟩ := p
    have hv : exactValue v = true := h (k, v) (by simp)
    have htail := ih fun q hq => h q (by simp [hq])
    simp only [to_serializable_dict, List.map_cons] at htail ⊢
    rw [unserializable_from_dict, unser_ser_exact v hv]
    simp only [htail]

/-- C5 amended witness: a concrete record with one column of each exact kind. -/
theorem korm_c5_amended_witness :
    unserializable_from_dict (to_serializable_dict
        [("kid", KValue.vInt 7), ("name", .vStr (.raw "a")), ("note", .vNone),
         ("d", .vDate ⟨2024, 5, 20⟩), ("t", .vDatetime ⟨2024, 5, 20, 10, 30, 0, 0⟩),
         ("x", .vDecimal ⟨false, [1, 2, 3, 4], -2⟩)]) =
      .ok [("kid", KValue.vInt 7), ("name", .vStr (.raw "a")), ("note", .vNone),
         ("d", .vDate ⟨2024, 5, 20⟩), ("t", .vDatetime ⟨2024, 5, 20, 10, 30, 0, 0⟩),
         ("x", .vDecimal ⟨false, [1, 2, 3, 4], -2⟩)] :=
  korm_c5_amended _ (by decide)

/-! #### The session, store and cache state

The thread-bound SQLAlchemy session (`DB.thread_session()`) over the SQLite
store, plus the optional redis hash cache (`cosmos.redis`, configured iff
`hasattr(cosmos, 'redis')`).

* `committed` is the durable store state, `tx` the session's view of it
  including its own pending (auto-flushed) changes; `session.commit()` makes
  `tx` durable, `session.rollback()` resets `tx` to `committed`.
* SQLite enforces the constraints at flush time: `commit` fails with an
  `IntegrityError` when a table holds two rows with the same `kid` (the
  UNIQUE column) or the same `id` (the primary key).
* `queries` counts the `session.query(...)` round trips; `locks` the row
  locks acquired by `with_for_update` reads (held until commit/rollback).
* The cache is a redis hash per table name: field = kid, value = the
  `json.dumps` payload — either a well-formed serialized dict (`jsonOf`) or
  a corrupted non-JSON blob (`badJson`); both are non-empty, hence truthy.
* Every entity declares `id = Column(INTEGER, primary_key=True)`
  (autoincrement) next to the UNIQUE `kid` column.  `session.merge` keys on
  this primary key: a record carrying its `id` replaces the state of the row
  with that key, while a transient record (no assigned `id`) is copied into
  a pending INSERT that receives the store-assigned autoincrement key — the
  caller's record itself is *not* updated by `merge`.  `session.add` makes
  the record itself pending, so the flush writes the assigned key back onto
  it.  The autoincrement assigns max+1 (SQLite rowids); since every session
  read autoflushes, the model materializes the assigned key on the pending
  insert immediately. -/

abbrev Tables := List (String × List Entity)

def tget (t : Tables) (tb : String) : List Entity :=
  match t.lookup tb with
  | some rows => rows
  | none => []

def tset : Tables → String → List Entity → Tables
  | [], tb, rows => [(tb, rows)]
  | (n, rs) :: rest, tb, rows =>
    if n == tb then (n, rows) :: rest else (n, rs) :: tset rest tb rows

inductive CacheVal where
  | jsonOf (d : SerDict)
  | badJson
  deriving DecidableEq, Repr

/-- `json.loads` on a cached payload. -/
def json_loads : CacheVal → Except PyErr SerDict
  | .jsonOf d => .ok d
  | .badJson => .error .jsonDecodeError

abbrev RedisState := List ((String × Int) × CacheVal)

def hget (r : RedisState) (tb : String) (k : Int) : Option CacheVal :=
  r.lookup (tb, k)

def hset : RedisState → String → Int → CacheVal → RedisState
  | [], tb, k, v => [((tb, k), v)]
  | (key, w) :: rest, tb, k, v =>
    if key == (tb, k) then (key, v) :: rest else (key, w) :: hset rest tb k v

def hdel (r : RedisState) (tb : String) (k : Int) : RedisState :=
  r.filter fun p => p.1 != (tb, k)

structure World where
  committed : Tables
  tx : Tables
  locks : List (String × Int)
  queries : Nat
  redis : Option RedisState
  deriving DecidableEq, Repr

/-- The business-key column as the store sees it (`filter_by(kid=...)`
matches integer kid values; NULL or absent never matches). -/
def kidOf (e : Entity) : Option Int :=
  match e.lookup "kid" with
  | some (.vInt i) => some i
  | _ => none

/-- `self.kid` truthiness (`if ... and self.kid:`): an integer kid is truthy
iff nonzero; NULL (or a deleted attribute, which reads back as None) is
falsy. -/
def kidTruthy (e : Entity) : Option Int :=
  match e.lookup "kid" with
  | some (.vInt i) => if i = 0 then none else some i
  | _ => none

/-- `hasattr(self, 'kid') and self.kid is not None` (used by `add`). -/
def kidNotNone (e : Entity) : Option Int :=
  match e.lookup "kid" with
  | some (.vInt i) => some i
  | _ => none

/-- `KOrmBase.remove_kid_if_none`: `del self.kid` when it is None, so the
column is omitted from the write entirely. -/
def remove_kid_if_none (e : Entity) : Entity :=
  if e.lookup "kid" == some KValue.vNone then e.eraseP (fun p => p.1 == "kid")
  else e

/-- The surrogate primary key (`id = Column(INTEGER, primary_key=True)`,
autoincrement) as the store sees it: an assigned integer key, or unassigned
(NULL / absent on a transient record). -/
def idOf (e : Entity) : Option Int :=
  match e.lookup "id" with
  | some (.vInt i) => some i
  | _ => none

/-- Writing the store-assigned primary key onto a record — what the flush
does to a pending instance (the `id` column is declared first in every
entity schema). -/
def setId (e : Entity) (i : Int) : Entity :=
  ("id", KValue.vInt i) :: e.eraseP (fun p => p.1 == "id")

/-- `session.query(cls).filter_by(kid=kid).first()`, optionally
`.with_for_update()`.  The query sees the session's own pending changes
(`tx`); a `with_for_update` hit acquires a row lock. -/
def queryFirstKid (w : World) (tb : String) (k : Int) (ffu : Bool) :
    Option Entity × World :=
  let r := (tget w.tx tb).find? fun e => kidOf e == some k
  (r, { w with
          queries := w.queries + 1,
          locks := if ffu && r.isSome then (tb, k) :: w.locks else w.locks })

def kidsOf (rows : List Entity) : List Int := rows.filterMap kidOf

def pksOf (rows : List Entity) : List Int := rows.filterMap idOf

/-- The next autoincrement primary key for a table: SQLite assigns max+1 of
the keys in use. -/
def nextPk (rows : List Entity) : Int :=
  (pksOf rows).foldr max 0 + 1

/-- The flush assigns the autoincrement key to a pending record without one;
a record inserted with an explicit key keeps it. -/
def assignPk (rows : List Entity) (e : Entity) : Entity :=
  match idOf e with
  | some _ => e
  | none => setId e (nextPk rows)

def nodupB : List Int → Bool
  | [] => true
  | x :: xs => !(xs.contains x) && nodupB xs

/-- The flush-time constraints per table: the UNIQUE `kid` column and the
integer primary key. -/
def commitOK (t : Tables) : Bool :=
  t.all fun p => nodupB (kidsOf p.2) && nodupB (pksOf p.2)

/-- `session.commit()`. -/
def commit (w : World) : Except PyErr World :=
  if commitOK w.tx then .ok { w with committed := w.tx, locks := [] }
  else .error .integrityError

/-- `session.rollback()`. -/
def rollback (w : World) : World := { w with tx := w.committed, locks := [] }

/-- Write a serialized record into the cache (`cosmos.redis.hset(...)`);
no-op when no cache is configured, matching the `hasattr` guards at every
call site. -/
def whset (w : World) (tb : String) (k : Int) (d : SerDict) : World :=
  match w.redis with
  | some r => { w with redis := some (hset r tb k (.jsonOf d)) }
  | none => w

/-- `cosmos.redis.hdel(...)`; no-op when no cache is configured. -/
def whdel (w : World) (tb : String) (k : Int) : World :=
  match w.redis with
  | some r => { w with redis := some (hdel r tb k) }
  | none => w

def mergeByPk : List Entity → Int → Entity → List Entity
  | [], _, e => [e]
  | r :: rs, i, e =>
    if idOf r == some i then e :: rs else r :: mergeByPk rs i e

/-- `session.merge(self)`: keyed on the PRIMARY key.  A record carrying its
surrogate key replaces the state of the row with that key (a pending insert
with that key when no such row exists); a transient record is copied into a
pending insert that receives the store-assigned autoincrement key at flush —
the caller's record itself is not updated. -/
def mergeRows (rows : List Entity) (e : Entity) : List Entity :=
  match idOf e with
  | some i => mergeByPk rows i e
  | none => rows ++ [setId e (nextPk rows)]

/-- `session.delete(self)`: the row this persistent instance stands for is
removed — the row with its business key (for a persistent instance the
identity map and the UNIQUE kid column make that the instance's own row),
or, for a record without business key, the row equal to it. -/
def removeRow (rows : List Entity) (e : Entity) : List Entity :=
  match kidOf e with
  | some k => rows.eraseP fun r => kidOf r == some k
  | none => rows.eraseP fun r => r == e

/-- `KOrmBase.get_by_kid(kid, with_for_update, use_cache)`.  Returns the
result (`None` is `none`; a propagating exception is `.error`) together with
the post-call state. -/
def get_by_kid (w : World) (tb : String) (k : Int)
    (with_for_update use_cache : Bool) :
    Except PyErr (Option Entity) × World :=
  if use_cache && w.redis.isSome then
    match hget (w.redis.getD []) tb k with
    | some payload =>
      match json_loads payload with
      | .error err => (.error err, w)
      | .ok d =>
        match unserializable_from_dict d with
        | .error err => (.error err, w)
        | .ok obj => (.ok (some obj), w)
    | none =>
      let (res, w') := queryFirstKid w tb k with_for_update
      match res with
      | some obj => (.ok (some obj), whset w' tb k (to_serializable_dict obj))
      | none => (.ok none, w')
  else
    let (res, w') := queryFirstKid w tb k with_for_update
    match res with
    | some obj =>
      (.ok (some obj),
        if w.redis.isSome then whset w' tb k (to_serializable_dict obj) else w')
    | none => (.ok none, w')

/-- `KOrmBase.save(with_commit, use_cache)`: `session.merge(self)` (primary
key keyed; a transient record becomes an inserted copy carrying the
store-assigned key, `self` itself is not updated); on commit the cache is
refreshed from `self.to_serializable_dict()` — the caller's record, whose
`id` column may differ from the committed row's — when `use_cache` and the
kid is truthy; without commit the cache entry is dropped instead; a failing
commit rolls the session back and re-raises. -/
def save (w : World) (tb : String) (e : Entity)
    (with_commit use_cache : Bool) : Except PyErr Unit × World :=
  let e' := remove_kid_if_none e
  let w1 := { w with tx := tset w.tx tb (mergeRows (tget w.tx tb) e') }
  if with_commit then
    match commit w1 with
    | .error err => (.error err, rollback w1)
    | .ok w2 =>
      if use_cache then
        match kidTruthy e' with
        | some k => (.ok (), whset w2 tb k (to_serializable_dict e'))
        | none => (.ok (), w2)
      else (.ok (), w2)
  else
    match kidTruthy e' with
    | some k => (.ok (), whdel w1 tb k)
    | none => (.ok (), w1)

/-- `KOrmBase.add(with_commit, use_cache)`: `session.add(self)` makes the
record itself pending, so the flush writes the store-assigned primary key
back onto it and the inserted row and the record later serialized into the
cache coincide; the cache refresh is guarded by `self.kid is not None` (not
truthiness). -/
def add (w : World) (tb : String) (e : Entity)
    (with_commit use_cache : Bool) : Except PyErr Unit × World :=
  let e' := assignPk (tget w.tx tb) (remove_kid_if_none e)
  let w1 := { w with tx := tset w.tx tb (tget w.tx tb ++ [e']) }
  if with_commit then
    match commit w1 with
    | .error err => (.error err, rollback w1)
    | .ok w2 =>
      if use_cache then
        match kidNotNone e' with
        | some k => (.ok (), whset w2 tb k (to_serializable_dict e'))
        | none => (.ok (), w2)
      else (.ok (), w2)
  else
    match kidTruthy e' with
    | some k => (.ok (), whdel w1 tb k)
    | none => (.ok (), w1)

/-- `KOrmBase.delete(with_commit)`: the cache entry is dropped for a truthy
kid on both the commit and the no-commit branch. -/
def delete (w : World) (tb : String) (e : Entity)
    (with_commit : Bool) : Except PyErr Unit × World :=
  let e' := remove_kid_if_none e
  let w1 := { w with tx := tset w.tx tb (removeRow (tget w.tx tb) e') }
  if with_commit then
    match commit w1 with
    | .error err => (.error err, rollback w1)
    | .ok w2 =>
      match kidTruthy e' with
      | some k => (.ok (), whdel w2 tb k)
      | none => (.ok (), w2)
  else
    match kidTruthy e' with
    | some k => (.ok (), whdel w1 tb k)
    | none => (.ok (), w1)

/-- `KOrmBase.delete_by_kid(kid, with_commit)`: an empty/zero (falsy) kid
raises `BusinessException(CommonError.PARAMETER_ERROR)`; otherwise
`get_by_kid` (defaults: no lock, no cache) and `instance.delete(...)` — on a
missing row the instance is `None` and the attribute access raises an
untyped `AttributeError`. -/
def delete_by_kid (w : World) (tb : String) (k : Int)
    (with_commit : Bool) : Except PyErr Unit × World :=
  if k = 0 then (.error .businessParamError, w)
  else
    match get_by_kid w tb k false false with
    | (.ok (some obj), w1) => delete w1 tb obj with_commit
    | (.ok none, w1) => (.error .attributeErrorNone, w1)
    | (.error err, w1) => (.error err, w1)

/-- The committed store row for a business key: first row of the table whose
kid column equals it. -/
def queryCommitted (w : World) (tb : String) (k : Int) : Option Entity :=
  (tget w.committed tb).find? fun e => kidOf e == some k

/-- One cache entry reflects the last committed state of its row: the entry's
value is exactly the serialization of the committed row under its key. -/
def entryOK (w : World) (p : (String × Int) × CacheVal) : Prop :=
  (queryCommitted w p.1.1 p.1.2).map
      (fun row => CacheVal.jsonOf (to_serializable_dict row)) = some p.2

/-- C2's invariant: every cache entry present reflects the last committed
state of the corresponding store row. -/
def CacheCoherent (w : World) : Prop :=
  ∀ p ∈ w.redis.getD [], entryOK w p

instance (w : World) (p : (String × Int) × CacheVal) : Decidable (entryOK w p) := by
  unfold entryOK
  infer_instance

instance (w : World) : Decidable (CacheCoherent w) := by
  unfold CacheCoherent
  infer_instance

/-- C3 amended: when the configured cache holds a payload for `(table, kid)`
that is not valid JSON, `get_by_kid(kid, use_cache=True)` propagates the
decode error to the caller (there is no try/except around the decode): no
fallback store read is issued, the cache entry is neither repopulated nor
purged, and the session state is untouched. -/
theorem korm_c3_amended (w : World) (tb : String) (k : Int) (r : RedisState)
    (ffu : Bool) (hr : w.redis = some r) (hbad : hget r tb k = some .badJson) :
    get_by_kid w tb k ffu true = (.error .jsonDecodeError, w) := by
  simp [get_by_kid, hr, hbad, json_loads]

/-- C3 counterexample: a concrete world whose store holds the row for kid 5
while the cache holds a corrupted payload for it.  `get_by_kid(5,
use_cache=True)` returns the decode error and leaves the world untouched
(query counter still 0 — the store was never consulted), refuting "the decode
error is not propagated to the caller: the call falls back to reading the
record from the store and returns the store's result". -/
theorem korm_c3_counterexample :
    get_by_kid
        ⟨[("tab", [[("kid", KValue.vInt 5), ("v", KValue.vInt 7)]])],
         [("tab", [[("kid", KValue.vInt 5), ("v", KValue.vInt 7)]])],
         [], 0, some [(("tab", 5), CacheVal.badJson)]⟩ "tab" 5 false true =
      (.error .jsonDecodeError,
        ⟨[("tab", [[("kid", KValue.vInt 5), ("v", KValue.vInt 7)]])],
         [("tab", [[("kid", KValue.vInt 5), ("v", KValue.vInt 7)]])],
         [], 0, some [(("tab", 5), CacheVal.badJson)]⟩) ∧
    queryCommitted
        ⟨[("tab", [[("kid", KValue.vInt 5), ("v", KValue.vInt 7)]])],
         [("tab", [[("kid", KValue.vInt 5), ("v", KValue.vInt 7)]])],
         [], 0, some [(("tab", 5), CacheVal.badJson)]⟩ "tab" 5 =
      some [("kid", KValue.vInt 5), ("v", KValue.vInt 7)] := by
  exact ⟨by decide, by decide⟩

/-- C3 amended witness. -/
theorem korm_c3_amended_witness :
    get_by_kid
        ⟨[], [], [], 0, some [(("t", 1), CacheVal.badJson)]⟩ "t" 1 false true =
      (.error .jsonDecodeError, ⟨[], [], [], 0, some [(("t", 1), CacheVal.badJson)]⟩) :=
  korm_c3_amended _ "t" 1 [(("t", 1), CacheVal.badJson)] false rfl (by decide)

/-- C9: on a decodable cache hit, `get_by_kid(kid, with_for_update=True,
use_cache=True)` returns the cached record and the state is completely
unchanged — no store query is issued (`queries` unchanged) and, in
particular, no row lock is acquired (`locks` unchanged) even though
`with_for_update` was requested: the lock-for-update semantics silently do
not apply on a cache hit. -/
theorem korm_c9_cache_hit_skips_lock (w : World) (tb : String) (k : Int)
    (r : RedisState) (d : SerDict) (obj : Entity)
    (hr : w.redis = some r) (hc : hget r tb k = some (.jsonOf d))
    (hdec : unserializable_from_dict d = .ok obj) :
    get_by_kid w tb k true true = (.ok (some obj), w) := by
  simp [get_by_kid, hr, hc, json_loads, hdec]

/-- C9 witness: a concrete decodable cache hit under `with_for_update`. -/
theorem korm_c9_cache_hit_skips_lock_witness :
    get_by_kid
        ⟨[("tab", [[("kid", KValue.vInt 3)]])], [("tab", [[("kid", KValue.vInt 3)]])],
         [], 0, some [(("tab", 3), CacheVal.jsonOf [("kid", SerVal.sInt 3)])]⟩
        "tab" 3 true true =
      (.ok (some [("kid", KValue.vInt 3)]),
        ⟨[("tab", [[("kid", KValue.vInt 3)]])], [("tab", [[("kid", KValue.vInt 3)]])],
         [], 0, some [(("tab", 3), CacheVal.jsonOf [("kid", SerVal.sInt 3)])]⟩) :=
  korm_c9_cache_hit_skips_lock _ "tab" 3 _ [("kid", SerVal.sInt 3)]
    [("kid", KValue.vInt 3)] rfl (by decide) (by decide)

/-- C10: `delete_by_kid` on a truthy kid that matches no row does not raise
the typed `BusinessException(PARAMETER_ERROR)` and does not return a
not-found result: `get_by_kid` (called with its defaults — no lock, no
cache) yields `None`, and `None.delete(...)` raises an untyped
`AttributeError`; the post-state differs from the pre-state only in the
query counter — store, cache and locks are unchanged. -/
theorem korm_c10_delete_by_kid_missing (w : World) (tb : String) (k : Int)
    (wc : Bool) (hk : k ≠ 0)
    (hrow : (tget w.tx tb).find? (fun e => kidOf e == some k) = none) :
    delete_by_kid w tb k wc =
      (.error .attributeErrorNone, { w with queries := w.queries + 1 }) := by
  simp [delete_by_kid, hk, get_by_kid, queryFirstKid, hrow]

/-- C10 witness. -/
theorem korm_c10_delete_by_kid_missing_witness :
    delete_by_kid (⟨[("tab", [])], [("tab", [])], [], 0, some []⟩ : World)
        "tab" 9 true =
      (.error .attributeErrorNone, ⟨[("tab", [])], [("tab", [])], [], 1, some []⟩) := by
  have h := korm_c10_delete_by_kid_missing
    (⟨[("tab", [])], [("tab", [])], [], 0, some []⟩ : World) "tab" 9 true
    (by decide) (by decide)
  simpa using h

/-- C8 amended: for a record with a *truthy* business key,
`save(record, with_commit=False)` with a cache configured removes any cache
entry for `(table, kid)` and never writes a new cache value; the committed
store state is unchanged by the call, so after the caller rolls back the
outer transaction the session again equals the pre-write committed state
while the cache entry stays absent — never the uncommitted write.  (A
non-null but *falsy* key — integer 0 — skips the removal, which is what the
counterexample exhibits.) -/
theorem hget_hdel_self (r : RedisState) (tb : String) (k : Int) :
    hget (hdel r tb k) tb k = none := by
  unfold hget hdel
  induction r with
  | nil => rfl
  | cons p rest ih =>
    rw [List.filter_cons]
    by_cases h : p.1 = (tb, k)
    · simp only [h, bne_self_eq_false, Bool.false_eq_true, if_false]
      exact ih
    · have hb : (p.1 != (tb, k)) = true := bne_iff_ne.mpr h
      rw [hb]
      simp only [if_true]
      have hb2 : ((tb, k) == p.1) = false := beq_eq_false_iff_ne.mpr (Ne.symm h)
      match p with
      | (key, v) =>
        simp only [List.lookup]
        simp only at hb2
        rw [hb2]
        exact ih

theorem korm_c8_amended (w : World) (tb : String) (e : Entity) (uc : Bool)
    (k : Int) (hk : kidTruthy e = some k) :
    (save w tb e false uc).1 = .ok () ∧
    hget ((save w tb e false uc).2.redis.getD []) tb k = none ∧
    (save w tb e false uc).2.committed = w.committed ∧
    (rollback (save w tb e false uc).2).tx = w.committed := by
  have hne : remove_kid_if_none e = e := by
    unfold remove_kid_if_none
    unfold kidTruthy at hk
    match hl : e.lookup "kid" with
    | some (.vInt i) => simp [hl]
    | some .vNone => rw [hl] at hk; simp at hk
    | some (.vStr s) => rw [hl] at hk; simp at hk
    | some (.vDatetime dt) => rw [hl] at hk; simp at hk
    | some (.vDate d) => rw [hl] at hk; simp at hk
    | some (.vDecimal d) => rw [hl] at hk; simp at hk
    | none => rw [hl] at hk; simp at hk
  have hsave : save w tb e false uc =
      (.ok (), whdel { w with tx := tset w.tx tb (mergeRows (tget w.tx tb) e) } tb k) := by
    simp [save, hne, hk]
  refine ⟨by rw [hsave], ?_, ?_, ?_⟩
  · rw [hsave]
    match hr : w.redis with
    | some r => simp [whdel, hr, hget_hdel_self]
    | none => simp [whdel, hr, hget]
  · rw [hsave]
    match hr : w.redis with
    | some r => simp [whdel, hr]
    | none => simp [whdel, hr]
  · rw [hsave]
    match hr : w.redis with
    | some r => simp [whdel, rollback, hr]
    | none => simp [whdel, rollback, hr]

/-- C8 counterexample: a record whose business key is the integer 0 — non-null
but falsy in Python.  `save(record, with_commit=False)` leaves the existing
cache entry for `(table, 0)` in place (`if ... and self.kid:` fails), refuting
"removes any existing cache entry" for every record with a non-null key.  (The
weaker consequence still holds: the surviving entry is the pre-write value.) -/
theorem korm_c8_counterexample :
    (save
        ⟨[("tab", [[("kid", KValue.vInt 0), ("v", KValue.vInt 9)]])],
         [("tab", [[("kid", KValue.vInt 0), ("v", KValue.vInt 9)]])],
         [], 0, some [(("tab", 0), CacheVal.jsonOf [("v", SerVal.sInt 9)])]⟩
        "tab" [("kid", KValue.vInt 0), ("v", KValue.vInt 1)] false true).1 = .ok () ∧
    hget (((save
        ⟨[("tab", [[("kid", KValue.vInt 0), ("v", KValue.vInt 9)]])],
         [("tab", [[("kid", KValue.vInt 0), ("v", KValue.vInt 9)]])],
         [], 0, some [(("tab", 0), CacheVal.jsonOf [("v", SerVal.sInt 9)])]⟩
        "tab" [("kid", KValue.vInt 0), ("v", KValue.vInt 1)] false true).2.redis.getD []))
        "tab" 0 =
      some (CacheVal.jsonOf [("v", SerVal.sInt 9)]) := by
  exact ⟨by decide, by decide⟩

/-- C8 amended witness. -/
theorem korm_c8_amended_witness :
    (save (⟨[], [], [], 0, some [(("tab", 4), CacheVal.badJson)]⟩ : World)
        "tab" [("kid", KValue.vInt 4)] false true).1 = .ok () ∧
    hget (((save (⟨[], [], [], 0, some [(("tab", 4), CacheVal.badJson)]⟩ : World)
        "tab" [("kid", KValue.vInt 4)] false true).2.redis.getD [])) "tab" 4 = none :=
  ⟨(korm_c8_amended _ "tab" [("kid", KValue.vInt 4)] true 4 (by decide)).1,
   (korm_c8_amended _ "tab" [("kid", KValue.vInt 4)] true 4 (by decide)).2.1⟩

/-! #### C2: the cache-coherence invariant over operation sequences -/

/-- A record is well-formed for the persistence layer: the `kid` column
appears at most once, and holds NULL or a *truthy* (nonzero) integer business
key — the shape every entity schema and the snowflake generator produce. -/
def wfEntity (e : Entity) : Bool :=
  decide ((e.countP fun p => p.1 == "kid") ≤ 1) &&
  match e.lookup "kid" with
  | none => true
  | some .vNone => true
  | some (.vInt i) => i != 0
  | some _ => false

def wfTables (t : Tables) : Bool := t.all fun p => p.2.all wfEntity

/-- One `PersistenceBase` call, as the claim's operation alphabet; the write
operations use their default flags (`with_commit=True, use_cache=True`). -/
inductive KOp where
  | opGet (tb : String) (k : Int) (ffu uc : Bool)
  | opSave (tb : String) (e : Entity)
  | opAdd (tb : String) (e : Entity)
  | opDelete (tb : String) (e : Entity)
  deriving DecidableEq, Repr

/-- The side condition under which a `save` keeps the kid-keyed cache
coherent: the record either carries the primary key of the rows it replaces
without changing their business key (the read-modify-write update pattern),
or is a keyless transient record, whose inserted copy is invisible to the
cache.  A transient record with a truthy kid is excluded: its inserted copy
receives the store-assigned `id` while the cache is written from the
caller's record, so the two serializations diverge (the counterexample). -/
def savePre (w : World) (tb : String) (e : Entity) : Bool :=
  match idOf (remove_kid_if_none e) with
  | some i =>
    (tget w.tx tb).all fun r =>
      idOf r != some i || kidOf r == kidOf (remove_kid_if_none e)
  | none => (kidOf (remove_kid_if_none e)).isNone

def stepOp (w : World) : KOp → World
  | .opGet tb k ffu uc => (get_by_kid w tb k ffu uc).2
  | .opSave tb e => (save w tb e true true).2
  | .opAdd tb e => (add w tb e true true).2
  | .opDelete tb e => (delete w tb e true).2

/-- The per-operation side conditions, checked in the state where the
operation runs: reads are unrestricted; `save` takes a well-formed record
satisfying `savePre`; `add` takes a well-formed record without a
pre-assigned surrogate key (the store assigns it at flush); `delete` takes a
well-formed record. -/
def wfOpIn (w : World) : KOp → Bool
  | .opGet _ _ _ _ => true
  | .opSave tb e => wfEntity e && savePre w tb e
  | .opAdd _ e => wfEntity e && (idOf (remove_kid_if_none e)).isNone
  | .opDelete _ e => wfEntity e

def opsWf : World → List KOp → Bool
  | _, [] => true
  | w, op :: ops => wfOpIn w op && opsWf (stepOp w op) ops

def runOps : World → List KOp → World
  | w, [] => w
  | w, op :: ops => runOps (stepOp w op) ops

/-- The state invariant: no pending transaction state, well-formed committed
rows, no duplicate cache keys, and every cache entry coherent with the
committed store. -/
def Inv (w : World) : Prop :=
  w.tx = w.committed ∧ wfTables w.committed = true ∧
  ((w.redis.getD []).map (·.1)).Nodup ∧ CacheCoherent w

instance (w : World) : Decidable (Inv w) := by
  unfold Inv
  infer_instance

/-- C2 counterexample, two sequences of the claim's own operations ending
with a stale cache entry.  First: from an empty store with an empty cache,
`add(R1)` inserts the row (store-assigned id 1) and populates the cache for
kid 7; `save(R2, with_commit=True, use_cache=False)` then merges by primary
key and commits a different state for the same row but leaves the cache
untouched — the entry now reflects a state older than the last committed
write.  Second: a single default-flag `save(R, with_commit=True,
use_cache=True)` of a transient record with kid 5 — `session.merge` inserts
a copy that receives the store-assigned id 1 while the cache is written from
the caller's record, whose id column is unassigned, so the entry differs
from the serialization of the committed row. -/
theorem korm_c2_counterexample :
    (hget (((save (add ⟨[], [], [], 0, some []⟩ "tab"
            [("kid", KValue.vInt 7), ("v", KValue.vInt 1)] true true).2 "tab"
            [("id", KValue.vInt 1), ("kid", KValue.vInt 7), ("v", KValue.vInt 2)]
            true false).2).redis.getD [])
        "tab" 7 =
      some (.jsonOf (to_serializable_dict
        [("id", KValue.vInt 1), ("kid", KValue.vInt 7), ("v", KValue.vInt 1)])) ∧
    queryCommitted ((save (add ⟨[], [], [], 0, some []⟩ "tab"
            [("kid", KValue.vInt 7), ("v", KValue.vInt 1)] true true).2 "tab"
            [("id", KValue.vInt 1), ("kid", KValue.vInt 7), ("v", KValue.vInt 2)]
            true false).2) "tab" 7 =
      some [("id", KValue.vInt 1), ("kid", KValue.vInt 7), ("v", KValue.vInt 2)] ∧
    ¬ CacheCoherent ((save (add ⟨[], [], [], 0, some []⟩ "tab"
            [("kid", KValue.vInt 7), ("v", KValue.vInt 1)] true true).2 "tab"
            [("id", KValue.vInt 1), ("kid", KValue.vInt 7), ("v", KValue.vInt 2)]
            true false).2)) ∧
    ((save ⟨[], [], [], 0, some []⟩ "tab" [("kid", KValue.vInt 5)] true true).1 =
        .ok () ∧
    hget (((save ⟨[], [], [], 0, some []⟩ "tab" [("kid", KValue.vInt 5)]
            true true).2).redis.getD []) "tab" 5 =
      some (.jsonOf (to_serializable_dict [("kid", KValue.vInt 5)])) ∧
    queryCommitted ((save ⟨[], [], [], 0, some []⟩ "tab" [("kid", KValue.vInt 5)]
            true true).2) "tab" 5 =
      some [("id", KValue.vInt 1), ("kid", KValue.vInt 5)] ∧
    ¬ CacheCoherent ((save ⟨[], [], [], 0, some []⟩ "tab" [("kid", KValue.vInt 5)]
            true true).2)) := by
  exact ⟨⟨by decide, by decide, by decide⟩, by decide, by decide, by decide, by decide⟩

/-! #### Structural lemmas for the C2 preservation proof -/

theorem lookup_eraseP_ne (l : Entity) (a b : String) (hab : (a == b) = false) :
    (l.eraseP fun p => p.1 == b).lookup a = l.lookup a := by
  induction l with
  | nil => rfl
  | cons p rest ih =>
    obtain ⟨key, v⟩ := p
    rw [List.eraseP_cons]
    by_cases hk : (key == b) = true
    · simp only [hk, cond_true]
      have hak : (a == key) = false := by
        rw [beq_iff_eq.mp hk]
        exact hab
      rw [List.lookup_cons]
      simp only [hak]
    · have hkf : (key == b) = false := by rw [Bool.not_eq_true] at hk; exact hk
      simp only [hkf, cond_false]
      rw [List.lookup_cons, List.lookup_cons]
      by_cases hak : (a == key) = true
      · simp only [hak]
      · have hakf : (a == key) = false := by rw [Bool.not_eq_true] at hak; exact hak
        simp only [hakf]
        exact ih

theorem countP_eraseP_disjoint {α : Type} (p q : α → Bool) (l : List α)
    (h : ∀ x, q x = true → p x = false) :
    (l.eraseP q).countP p = l.countP p := by
  induction l with
  | nil => rfl
  | cons a rest ih =>
    rw [List.eraseP_cons]
    by_cases hq : q a = true
    · simp only [hq, cond_true]
      rw [List.countP_cons]
      simp only [h a hq, Bool.false_eq_true, if_false, Nat.add_zero]
    · have hqf : q a = false := by rw [Bool.not_eq_true] at hq; exact hq
      simp only [hqf, cond_false]
      rw [List.countP_cons, List.countP_cons, ih]

theorem lookup_kid_setId (e : Entity) (i : Int) :
    (setId e i).lookup "kid" = e.lookup "kid" := by
  unfold setId
  rw [List.lookup_cons]
  have h1 : (("kid" : String) == "id") = false := by decide
  simp only [h1]
  exact lookup_eraseP_ne e "kid" "id" (by decide)

theorem idOf_setId (e : Entity) (i : Int) : idOf (setId e i) = some i := by
  have h1 : (("id" : String) == "id") = true := by decide
  unfold idOf setId
  rw [List.lookup_cons]
  simp [h1]

theorem kidOf_setId (e : Entity) (i : Int) : kidOf (setId e i) = kidOf e := by
  unfold kidOf
  rw [lookup_kid_setId]

theorem kidTruthy_setId (e : Entity) (i : Int) :
    kidTruthy (setId e i) = kidTruthy e := by
  unfold kidTruthy
  rw [lookup_kid_setId]

theorem kidNotNone_setId (e : Entity) (i : Int) :
    kidNotNone (setId e i) = kidNotNone e := by
  unfold kidNotNone
  rw [lookup_kid_setId]

theorem wfEntity_setId (e : Entity) (i : Int) (h : wfEntity e = true) :
    wfEntity (setId e i) = true := by
  rw [wfEntity, Bool.and_eq_true, decide_eq_true_eq] at h
  obtain ⟨hcount, hmatch⟩ := h
  rw [wfEntity, Bool.and_eq_true, decide_eq_true_eq, lookup_kid_setId]
  refine ⟨?_, hmatch⟩
  unfold setId
  rw [List.countP_cons]
  have hne : (("id" : String) == "kid") = false := by decide
  simp only [hne, Bool.false_eq_true, if_false, Nat.add_zero]
  calc ((e.eraseP fun p => p.1 == "id").countP fun p => p.1 == "kid")
      ≤ e.countP fun p => p.1 == "kid" :=
        List.Sublist.countP_le (fun p => p.1 == "kid") (List.eraseP_sublist e)
    _ ≤ 1 := hcount

/-- A well-formed record's business key as seen by SQL matching, Python
truthiness and the `is not None` test: either absent in all three views, or
a single truthy integer key seen identically by all three. -/
theorem wfEntity_kid_cases (x : Entity) (h : wfEntity x = true) :
    (kidOf x = none ∧ kidTruthy x = none ∧ kidNotNone x = none) ∨
    (∃ k, k ≠ 0 ∧ kidOf x = some k ∧ kidTruthy x = some k ∧
      kidNotNone x = some k) := by
  rw [wfEntity, Bool.and_eq_true, decide_eq_true_eq] at h
  obtain ⟨hcount, hmatch⟩ := h
  match hl : x.lookup "kid" with
  | none =>
    exact Or.inl ⟨by rw [kidOf, hl], by rw [kidTruthy, hl], by rw [kidNotNone, hl]⟩
  | some .vNone =>
    exact Or.inl ⟨by rw [kidOf, hl], by rw [kidTruthy, hl], by rw [kidNotNone, hl]⟩
  | some (.vInt i) =>
    simp only [hl] at hmatch
    rw [bne_iff_ne] at hmatch
    refine Or.inr ⟨i, hmatch, by rw [kidOf, hl], ?_, by rw [kidNotNone, hl]⟩
    rw [kidTruthy, hl]
    simp [hmatch]
  | some (.vStr s) => simp only [hl] at hmatch; exact Bool.noConfusion hmatch
  | some (.vDatetime dt) => simp only [hl] at hmatch; exact Bool.noConfusion hmatch
  | some (.vDate d) => simp only [hl] at hmatch; exact Bool.noConfusion hmatch
  | some (.vDecimal d) => simp only [hl] at hmatch; exact Bool.noConfusion hmatch

theorem mem_mergeByPk (rows : List Entity) (i : Int) (e : Entity) :
    ∀ r ∈ mergeByPk rows i e, r ∈ rows ∨ r = e := by
  induction rows with
  | nil => intro r hr; simp [mergeByPk] at hr; simp [hr]
  | cons a rs ih =>
    intro r hr
    by_cases h : (idOf a == some i) = true
    · simp [mergeByPk, h] at hr
      rcases hr with h1 | h1 <;> simp [h1]
    · simp [mergeByPk, h] at hr
      rcases hr with h1 | h1
      · simp [h1]
      · rcases ih r h1 with h2 | h2 <;> simp [h2]

theorem mergeByPk_mem_self (rows : List Entity) (i : Int) (e : Entity) :
    e ∈ mergeByPk rows i e := by
  induction rows with
  | nil => simp [mergeByPk]
  | cons a rs ih =>
    by_cases h : (idOf a == some i) = true
    · simp [mergeByPk, h]
    · simp only [mergeByPk]
      rw [if_neg h]
      exact List.mem_cons_of_mem a ih

/-- Replacing (or inserting) the row keyed by primary key `i` is invisible
to a row predicate that rejects the merged record and every row carrying
key `i`. -/
theorem mergeByPk_find?_of_false (rows : List Entity) (i : Int) (e : Entity)
    (q : Entity → Bool) (he : q e = false)
    (hrows : ∀ r ∈ rows, idOf r = some i → q r = false) :
    (mergeByPk rows i e).find? q = rows.find? q := by
  induction rows with
  | nil =>
    show ([e].find? q) = none
    rw [List.find?_cons_of_neg _ (by simp [he])]
    rfl
  | cons a rs ih =>
    by_cases h : (idOf a == some i) = true
    · have hqa : q a = false := hrows a (by simp) (beq_iff_eq.mp h)
      simp only [mergeByPk, h, if_true]
      rw [List.find?_cons_of_neg _ (by simp [he]),
        List.find?_cons_of_neg _ (by simp [hqa])]
    · simp only [mergeByPk]
      rw [if_neg h]
      by_cases hqa : q a = true
      · rw [List.find?_cons_of_pos _ hqa, List.find?_cons_of_pos _ hqa]
      · rw [List.find?_cons_of_neg _ (by simp [hqa]),
          List.find?_cons_of_neg _ (by simp [hqa])]
        exact ih fun r hr => hrows r (List.mem_cons_of_mem a hr)

theorem kidsOf_contains_of_mem (rows : List Entity) (x : Entity) (k : Int)
    (hmem : x ∈ rows) (hx : kidOf x = some k) :
    (kidsOf rows).contains k = true := by
  apply List.elem_iff.mpr
  unfold kidsOf
  exact List.mem_filterMap.mpr ⟨x, hmem, hx⟩

/-- When the business keys of a table are duplicate-free, the first row
matching a key is the member row carrying it. -/
theorem find?_kid_of_nodup (rows : List Entity) (x : Entity) (k : Int)
    (hmem : x ∈ rows) (hx : kidOf x = some k)
    (hnd : nodupB (kidsOf rows) = true) :
    rows.find? (fun r => kidOf r == some k) = some x := by
  induction rows with
  | nil => exact absurd hmem (List.not_mem_nil x)
  | cons a rs ih =>
    rcases List.mem_cons.mp hmem with rfl | hmem'
    · rw [List.find?_cons_of_pos _ (by simp [hx])]
    · have hka : kidOf a ≠ some k := by
        intro hc
        have hks : kidsOf (a :: rs) = k :: kidsOf rs := by
          simp [kidsOf, List.filterMap_cons, hc]
        rw [hks, nodupB, Bool.and_eq_true] at hnd
        have hcn := hnd.1
        rw [Bool.not_eq_true'] at hcn
        rw [kidsOf_contains_of_mem rs x k hmem' hx] at hcn
        exact Bool.noConfusion hcn
      rw [List.find?_cons_of_neg _ (by simp [hka])]
      apply ih hmem'
      match hk0 : kidOf a with
      | some k0 =>
        have hks : kidsOf (a :: rs) = k0 :: kidsOf rs := by
          simp [kidsOf, List.filterMap_cons, hk0]
        rw [hks, nodupB, Bool.and_eq_true] at hnd
        exact hnd.2
      | none =>
        have hks : kidsOf (a :: rs) = kidsOf rs := by
          simp [kidsOf, List.filterMap_cons, hk0]
        rw [hks] at hnd
        exact hnd

theorem find?_eraseP_of_disjoint {α : Type} (q p : α → Bool) (l : List α)
    (h : ∀ x, q x = true → p x = false) :
    (l.eraseP q).find? p = l.find? p := by
  induction l with
  | nil => rfl
  | cons a l ih =>
    by_cases hq : q a = true
    · rw [List.eraseP_cons_of_pos hq, List.find?_cons_of_neg _ (by simp [h a hq])]
    · rw [List.eraseP_cons_of_neg (by simp [hq])]
      by_cases hp : p a = true
      · rw [List.find?_cons_of_pos _ hp, List.find?_cons_of_pos _ hp]
      · rw [List.find?_cons_of_neg _ (by simp [hp]),
          List.find?_cons_of_neg _ (by simp [hp])]
        exact ih

theorem find?_append_singleton_false {α : Type} (l : List α) (x : α)
    (q : α → Bool) (hx : q x = false) : (l ++ [x]).find? q = l.find? q := by
  induction l with
  | nil =>
    show ([x].find? q) = none
    rw [List.find?_cons_of_neg _ (by simp [hx])]
    rfl
  | cons a rest ih =>
    by_cases hqa : q a = true
    · rw [List.cons_append, List.find?_cons_of_pos _ hqa,
        List.find?_cons_of_pos _ hqa]
    · rw [List.cons_append, List.find?_cons_of_neg _ (by simp [hqa]),
        List.find?_cons_of_neg _ (by simp [hqa])]
      exact ih

theorem all_eraseP {α : Type} (f q : α → Bool) (l : List α)
    (h : l.all f = true) : (l.eraseP q).all f = true := by
  rw [List.all_eq_true] at h ⊢
  intro x hx
  exact h x ((List.eraseP_sublist l).subset hx)

theorem nodupB_append_singleton (A : List Int) (k : Int)
    (h : nodupB (A ++ [k]) = true) : A.contains k = false := by
  induction A with
  | nil => rfl
  | cons x A' ih =>
    rw [List.cons_append, nodupB] at h
    simp only [Bool.and_eq_true, Bool.not_eq_true'] at h
    obtain ⟨hc, hrest⟩ := h
    rw [List.contains_cons]
    by_cases hxk : k = x
    · exfalso
      subst hxk
      have hmem : (A' ++ [k]).contains k = true :=
        List.elem_iff.mpr (by simp)
      rw [hmem] at hc
      exact Bool.noConfusion hc
    · rw [beq_eq_false_iff_ne.mpr hxk, ih hrest]
      rfl

theorem find?_kid_none_of_contains_false (rows : List Entity) (k : Int)
    (h : (kidsOf rows).contains k = false) :
    rows.find? (fun r => kidOf r == some k) = none := by
  induction rows with
  | nil => rfl
  | cons r rs ih =>
    match hk : kidOf r with
    | some k0 =>
      have hks : kidsOf (r :: rs) = k0 :: kidsOf rs := by
        simp [kidsOf, List.filterMap_cons, hk]
      rw [hks, List.contains_cons] at h
      simp only [Bool.or_eq_false_iff] at h
      obtain ⟨h1, h2⟩ := h
      have hne : kidOf r ≠ some k := by
        rw [hk]
        intro hc
        injection hc with hc'
        rw [hc'] at h1
        simp at h1
      rw [List.find?_cons_of_neg _ (by simp [hne])]
      exact ih h2
    | none =>
      have hks : kidsOf (r :: rs) = kidsOf rs := by
        simp [kidsOf, List.filterMap_cons, hk]
      rw [hks] at h
      have hne : kidOf r ≠ some k := by rw [hk]; exact Option.noConfusion
      rw [List.find?_cons_of_neg _ (by simp [hne])]
      exact ih h

theorem tget_cons (n : String) (rs : List Entity) (rest : Tables) (tb' : String) :
    tget ((n, rs) :: rest) tb' = if tb' = n then rs else tget rest tb' := by
  by_cases h : tb' = n
  · simp [tget, List.lookup, beq_iff_eq.mpr h, h]
  · simp [tget, List.lookup, beq_eq_false_iff_ne.mpr h, h]

theorem tget_tset (t : Tables) (tb tb' : String) (rows : List Entity) :
    tget (tset t tb rows) tb' = if tb' = tb then rows else tget t tb' := by
  induction t with
  | nil =>
    simp only [tset]
    rw [tget_cons]
  | cons p rest ih =>
    obtain ⟨n, rs⟩ := p
    by_cases hn : n = tb
    · simp only [tset, beq_iff_eq.mpr hn, if_true]
      rw [tget_cons, tget_cons]
      by_cases h1 : tb' = n
      · simp [h1, hn]
      · have h2 : ¬ tb' = tb := fun hc => h1 (hc.trans hn.symm)
        simp [h1, h2]
    · simp only [tset, beq_eq_false_iff_ne.mpr hn, Bool.false_eq_true, if_false]
      rw [tget_cons, tget_cons, ih]
      by_cases h1 : tb' = n
      · have h2 : ¬ tb' = tb := fun hc => hn (h1.symm.trans hc)
        simp [h1, h2, hn]
      · simp [h1]

theorem commitOK_tget (t : Tables) (tb : String)
    (h : commitOK t = true) : nodupB (kidsOf (tget t tb)) = true := by
  induction t with
  | nil => rfl
  | cons p rest ih =>
    obtain ⟨n, rs⟩ := p
    rw [commitOK, List.all_cons] at h
    simp only [Bool.and_eq_true] at h
    obtain ⟨h1, h2⟩ := h
    by_cases hn : tb = n
    · simp [tget, List.lookup, beq_iff_eq.mpr hn]
      exact h1.1
    · have : tget ((n, rs) :: rest) tb = tget rest tb := by
        simp [tget, List.lookup, beq_eq_false_iff_ne.mpr hn]
      rw [this]
      exact ih h2

theorem keys_hset_mem (r : RedisState) (tb : String) (k : Int) (v : CacheVal) :
    ∀ q ∈ (hset r tb k v).map (·.1), q ∈ r.map (·.1) ∨ q = (tb, k) := by
  induction r with
  | nil => intro q hq; simp [hset] at hq; simp [hq]
  | cons a rest ih =>
    intro q hq
    by_cases ha : a.1 = (tb, k)
    · rw [show hset (a :: rest) tb k v = (a.1, v) :: rest by
        simp [hset, beq_iff_eq.mpr ha]] at hq
      simp at hq
      rcases hq with h1 | h1
      · right; rw [h1, ha]
      · left; simp [h1]
    · rw [show hset (a :: rest) tb k v = a :: hset rest tb k v by
        simp [hset, beq_eq_false_iff_ne.mpr ha]] at hq
      simp at hq
      rcases hq with h1 | h1
      · left; simp [h1]
      · rcases ih q (by simpa using h1) with h2 | h2
        · left; simp at h2 ⊢; exact Or.inr h2
        · right; exact h2

theorem nodup_keys_hset (r : RedisState) (tb : String) (k : Int) (v : CacheVal)
    (h : (r.map (·.1)).Nodup) : ((hset r tb k v).map (·.1)).Nodup := by
  induction r with
  | nil => simp [hset]
  | cons a rest ih =>
    rw [List.map_cons, List.nodup_cons] at h
    obtain ⟨hhead, htail⟩ := h
    by_cases ha : a.1 = (tb, k)
    · rw [show hset (a :: rest) tb k v = (a.1, v) :: rest by
        simp [hset, beq_iff_eq.mpr ha]]
      rw [List.map_cons, List.nodup_cons]
      exact ⟨hhead, htail⟩
    · rw [show hset (a :: rest) tb k v = a :: hset rest tb k v by
        simp [hset, beq_eq_false_iff_ne.mpr ha]]
      rw [List.map_cons, List.nodup_cons]
      refine ⟨?_, ih htail⟩
      intro hc
      rcases keys_hset_mem rest tb k v a.1 hc with h2 | h2
      · exact hhead h2
      · exact ha h2

theorem mem_hset (r : RedisState) (tb : String) (k : Int) (v : CacheVal)
    (hnd : (r.map (·.1)).Nodup) :
    ∀ p ∈ hset r tb k v, p = ((tb, k), v) ∨ (p ∈ r ∧ p.1 ≠ (tb, k)) := by
  induction r with
  | nil => intro p hp; simp [hset] at hp; simp [hp]
  | cons a rest ih =>
    rw [List.map_cons, List.nodup_cons] at hnd
    obtain ⟨hhead, htail⟩ := hnd
    intro p hp
    by_cases ha : a.1 = (tb, k)
    · rw [show hset (a :: rest) tb k v = (a.1, v) :: rest by
        simp [hset, beq_iff_eq.mpr ha]] at hp
      simp at hp
      rcases hp with h1 | h1
      · left; rw [h1, ha]
      · right
        refine ⟨by simp [h1], ?_⟩
        intro hc
        apply hhead
        rw [ha, ← hc]
        exact List.mem_map_of_mem _ h1
    · rw [show hset (a :: rest) tb k v = a :: hset rest tb k v by
        simp [hset, beq_eq_false_iff_ne.mpr ha]] at hp
      simp at hp
      rcases hp with h1 | h1
      · right; exact ⟨by simp [h1], by rw [h1]; exact ha⟩
      · rcases ih htail p h1 with h2 | h2
        · left; exact h2
        · right; exact ⟨by simp [h2.1], h2.2⟩

theorem mem_hdel (r : RedisState) (tb : String) (k : Int) :
    ∀ p ∈ hdel r tb k, p ∈ r ∧ p.1 ≠ (tb, k) := by
  intro p hp
  unfold hdel at hp
  rw [List.mem_filter] at hp
  exact ⟨hp.1, bne_iff_ne.mp hp.2⟩

theorem nodup_keys_hdel (r : RedisState) (tb : String) (k : Int)
    (h : (r.map (·.1)).Nodup) : ((hdel r tb k).map (·.1)).Nodup :=
  List.Nodup.sublist (List.Sublist.map (·.1) (List.filter_sublist r)) h

theorem hget_none_not_mem (r : RedisState) (tb : String) (k : Int)
    (h : hget r tb k = none) : ∀ p ∈ r, p.1 ≠ (tb, k) := by
  unfold hget at h
  rw [List.lookup_eq_none_iff] at h
  intro p hp
  exact fun hc => (bne_iff_ne.mp (h p hp)) hc.symm

theorem wfTables_tset (t : Tables) (tb : String) (rows : List Entity)
    (ht : wfTables t = true) (hrows : rows.all wfEntity = true) :
    wfTables (tset t tb rows) = true := by
  induction t with
  | nil => simp [tset, wfTables, hrows]
  | cons p rest ih =>
    obtain ⟨n, rs⟩ := p
    rw [wfTables, List.all_cons] at ht
    simp only [Bool.and_eq_true] at ht
    obtain ⟨h1, h2⟩ := ht
    by_cases hn : n = tb
    · simp only [tset, beq_iff_eq.mpr hn, if_true]
      rw [wfTables, List.all_cons]
      simp only [Bool.and_eq_true]
      exact ⟨hrows, h2⟩
    · simp only [tset, beq_eq_false_iff_ne.mpr hn, Bool.false_eq_true, if_false]
      rw [wfTables, List.all_cons]
      simp only [Bool.and_eq_true]
      exact ⟨h1, ih h2⟩

theorem all_wf_tget (t : Tables) (tb : String) (h : wfTables t = true) :
    (tget t tb).all wfEntity = true := by
  induction t with
  | nil => rfl
  | cons p rest ih =>
    obtain ⟨n, rs⟩ := p
    rw [wfTables, List.all_cons] at h
    simp only [Bool.and_eq_true] at h
    obtain ⟨h1, h2⟩ := h
    rw [tget_cons]
    by_cases hn : tb = n
    · rw [if_pos hn]; exact h1
    · rw [if_neg hn]; exact ih h2

theorem countP_zero_lookup_none (e : Entity)
    (h : (e.countP fun p => p.1 == "kid") = 0) : e.lookup "kid" = none := by
  induction e with
  | nil => rfl
  | cons p rest ih =>
    obtain ⟨key, v⟩ := p
    rw [List.countP_cons] at h
    by_cases hp : (key == "kid") = true
    · simp only [hp, if_true] at h
      omega
    · have hpf : (key == "kid") = false := by
        rw [Bool.not_eq_true] at hp
        exact hp
      simp only [hpf, Bool.false_eq_true, if_false, Nat.add_zero] at h
      have hb : ("kid" == key) = false :=
        beq_eq_false_iff_ne.mpr fun hc => (beq_eq_false_iff_ne.mp hpf) hc.symm
      rw [List.lookup_cons]
      simp only [hb]
      exact ih h

theorem lookup_eraseP_kid (e : Entity)
    (h : (e.countP fun p => p.1 == "kid") ≤ 1) :
    (e.eraseP fun p => p.1 == "kid").lookup "kid" = none := by
  induction e with
  | nil => rfl
  | cons p rest ih =>
    obtain ⟨key, v⟩ := p
    rw [List.countP_cons] at h
    rw [List.eraseP_cons]
    by_cases hp : (key == "kid") = true
    · simp only [hp, if_true, cond_true] at h ⊢
      exact countP_zero_lookup_none rest (by omega)
    · have hpf : (key == "kid") = false := by
        rw [Bool.not_eq_true] at hp
        exact hp
      simp only [hpf, Bool.false_eq_true, if_false, Nat.add_zero, cond_false] at h ⊢
      have hb : ("kid" == key) = false :=
        beq_eq_false_iff_ne.mpr fun hc => (beq_eq_false_iff_ne.mp hpf) hc.symm
      rw [List.lookup_cons]
      simp only [hb]
      exact ih h

/-- How `remove_kid_if_none` interacts with the three kid views on a
well-formed record: afterwards either there is no business key at all, or
there is a single truthy integer key seen identically by SQL matching,
truthiness and the `is not None` test. -/
theorem wf_remove_kid (e : Entity) (hwf : wfEntity e = true) :
    wfEntity (remove_kid_if_none e) = true ∧
    ((kidOf (remove_kid_if_none e) = none ∧
      kidTruthy (remove_kid_if_none e) = none ∧
      kidNotNone (remove_kid_if_none e) = none) ∨
     (∃ k, k ≠ 0 ∧ kidOf (remove_kid_if_none e) = some k ∧
       kidTruthy (remove_kid_if_none e) = some k ∧
       kidNotNone (remove_kid_if_none e) = some k)) := by
  rw [wfEntity, Bool.and_eq_true, decide_eq_true_eq] at hwf
  obtain ⟨hcount, hmatch⟩ := hwf
  match hl : e.lookup "kid" with
  | none =>
    have he' : remove_kid_if_none e = e := by
      rw [remove_kid_if_none, hl]
      simp
    have hwf' : wfEntity e = true := by
      rw [wfEntity, Bool.and_eq_true, decide_eq_true_eq, hl]
      exact ⟨hcount, rfl⟩
    rw [he']
    exact ⟨hwf', Or.inl ⟨by rw [kidOf, hl], by rw [kidTruthy, hl],
      by rw [kidNotNone, hl]⟩⟩
  | some .vNone =>
    have he' : remove_kid_if_none e = e.eraseP fun p => p.1 == "kid" := by
      rw [remove_kid_if_none, hl]
      simp
    have hl' : (e.eraseP fun p => p.1 == "kid").lookup "kid" = none :=
      lookup_eraseP_kid e hcount
    have hwf' : wfEntity (e.eraseP fun p => p.1 == "kid") = true := by
      rw [wfEntity, Bool.and_eq_true, decide_eq_true_eq, hl']
      exact ⟨le_trans
        (List.Sublist.countP_le (fun p => p.1 == "kid") (List.eraseP_sublist e))
        hcount, rfl⟩
    rw [he']
    exact ⟨hwf', Or.inl ⟨by rw [kidOf, hl'], by rw [kidTruthy, hl'],
      by rw [kidNotNone, hl']⟩⟩
  | some (.vInt i) =>
    simp only [hl] at hmatch
    rw [bne_iff_ne] at hmatch
    have he' : remove_kid_if_none e = e := by
      rw [remove_kid_if_none, hl]
      simp
    have hwf' : wfEntity e = true := by
      rw [wfEntity, Bool.and_eq_true, decide_eq_true_eq, hl]
      exact ⟨hcount, by simpa using hmatch⟩
    rw [he']
    refine ⟨hwf', Or.inr ⟨i, hmatch, by rw [kidOf, hl], ?_, by rw [kidNotNone, hl]⟩⟩
    rw [kidTruthy, hl]
    simp [hmatch]
  | some (.vStr s) => simp only [hl] at hmatch; exact Bool.noConfusion hmatch
  | some (.vDatetime dt) => simp only [hl] at hmatch; exact Bool.noConfusion hmatch
  | some (.vDate d) => simp only [hl] at hmatch; exact Bool.noConfusion hmatch
  | some (.vDecimal d) => simp only [hl] at hmatch; exact Bool.noConfusion hmatch

theorem queryCommitted_congr (w w' : World) (tb : String) (k : Int)
    (hc : w'.committed = w.committed) :
    queryCommitted w' tb k = queryCommitted w tb k := by
  unfold queryCommitted
  rw [hc]

theorem entryOK_of_committed_eq (w w' : World) (p : (String × Int) × CacheVal)
    (hc : w'.committed = w.committed) (h : entryOK w p) : entryOK w' p := by
  unfold entryOK
  rw [queryCommitted_congr w w' p.1.1 p.1.2 hc]
  exact h

theorem Inv_of_fields (w w' : World) (hc : w'.committed = w.committed)
    (ht : w'.tx = w.tx) (hr : w'.redis = w.redis) (h : Inv w) : Inv w' := by
  obtain ⟨h1, h2, h3, h4⟩ := h
  refine ⟨by rw [ht, hc, h1], by rw [hc]; exact h2, by rw [hr]; exact h3, ?_⟩
  intro p hp
  rw [hr] at hp
  exact entryOK_of_committed_eq w w' p hc (h4 p hp)

theorem queryFirstKid_fields (w : World) (tb : String) (k : Int) (ffu : Bool) :
    (queryFirstKid w tb k ffu).2.committed = w.committed ∧
    (queryFirstKid w tb k ffu).2.tx = w.tx ∧
    (queryFirstKid w tb k ffu).2.redis = w.redis ∧
    (queryFirstKid w tb k ffu).1 =
      (tget w.tx tb).find? (fun e => kidOf e == some k) :=
  ⟨rfl, rfl, rfl, rfl⟩

/-- The freshly written entry for a key is coherent when its value is the
serialization of the committed row. -/
theorem entryOK_self (w : World) (tb : String) (k : Int) (obj : Entity)
    (hobj : queryCommitted w tb k = some obj) :
    entryOK w ((tb, k), CacheVal.jsonOf (to_serializable_dict obj)) := by
  show (queryCommitted w tb k).map
      (fun row => CacheVal.jsonOf (to_serializable_dict row)) =
    some (CacheVal.jsonOf (to_serializable_dict obj))
  rw [hobj]
  rfl

/-- Refreshing the cache entry of a key with the serialization of its current
committed row preserves the invariant. -/
theorem Inv_whset (w : World) (tb : String) (k : Int) (obj : Entity)
    (h : Inv w) (hobj : queryCommitted w tb k = some obj) :
    Inv (whset w tb k (to_serializable_dict obj)) := by
  obtain ⟨h1, h2, h3, h4⟩ := h
  match hr : w.redis with
  | none =>
    unfold whset
    rw [hr]
    exact ⟨h1, h2, h3, h4⟩
  | some r =>
    rw [hr] at h3
    simp only [Option.getD_some] at h3
    have hw' : whset w tb k (to_serializable_dict obj) =
        { w with redis := some (hset r tb k (.jsonOf (to_serializable_dict obj))) } := by
      unfold whset
      rw [hr]
    rw [hw']
    refine ⟨h1, h2, ?_, ?_⟩
    · simp only [Option.getD_some]
      exact nodup_keys_hset r tb k _ h3
    · intro p hp
      simp only [Option.getD_some] at hp
      rcases mem_hset r tb k _ h3 p hp with hcase | hcase
      · rw [hcase]
        exact entryOK_self _ tb k obj hobj
      · refine entryOK_of_committed_eq w _ p rfl ?_
        exact h4 p (by rw [hr]; simpa using hcase.1)

/-- `get_by_kid` preserves the invariant for any flags: a hit touches
nothing; a miss repopulates the cache from the session view, which equals
the committed state. -/
theorem Inv_get (w : World) (tb : String) (k : Int) (ffu uc : Bool)
    (h : Inv w) : Inv (get_by_kid w tb k ffu uc).2 := by
  have hqf := queryFirstKid_fields w tb k ffu
  obtain ⟨hqc, hqt, hqr, hqres⟩ := hqf
  have hInvq : Inv (queryFirstKid w tb k ffu).2 :=
    Inv_of_fields w _ hqc hqt hqr h
  have hcommit : ∀ obj,
      (tget w.tx tb).find? (fun e => kidOf e == some k) = some obj →
      queryCommitted (queryFirstKid w tb k ffu).2 tb k = some obj := by
    intro obj hobj
    unfold queryCommitted
    rw [hqc, ← h.1]
    exact hobj
  have hmiss : Inv ((match queryFirstKid w tb k ffu with
      | (res, w') =>
        match res with
        | some obj => ((Except.ok (some obj) : Except PyErr (Option Entity)),
            whset w' tb k (to_serializable_dict obj))
        | none => (Except.ok none, w')).2) := by
    cases hq2 : queryFirstKid w tb k ffu with
    | mk res w' =>
      rw [hq2] at hInvq hqres hcommit
      simp only at hInvq hqres hcommit
      cases res with
      | some obj => exact Inv_whset w' tb k obj hInvq (hcommit obj hqres.symm)
      | none => exact hInvq
  have hmiss2 : Inv ((match queryFirstKid w tb k ffu with
      | (res, w') =>
        match res with
        | some obj => ((Except.ok (some obj) : Except PyErr (Option Entity)),
            if w.redis.isSome then whset w' tb k (to_serializable_dict obj) else w')
        | none => (Except.ok none, w')).2) := by
    cases hq2 : queryFirstKid w tb k ffu with
    | mk res w' =>
      rw [hq2] at hInvq hqres hcommit
      simp only at hInvq hqres hcommit
      cases res with
      | some obj =>
        by_cases hrs : w.redis.isSome = true
        · simp only [hrs, if_true]
          exact Inv_whset w' tb k obj hInvq (hcommit obj hqres.symm)
        · simp only [hrs, Bool.false_eq_true, if_false]
          exact hInvq
      | none => exact hInvq
  unfold get_by_kid
  by_cases hg : (uc && w.redis.isSome) = true
  · rw [if_pos hg]
    cases hget (w.redis.getD []) tb k with
    | some payload =>
      show Inv ((match json_loads payload with
        | .error err => ((Except.error err : Except PyErr (Option Entity)), w)
        | .ok d =>
          match unserializable_from_dict d with
          | .error err => (Except.error err, w)
          | .ok obj => (Except.ok (some obj), w)).2)
      cases json_loads payload with
      | error err => exact h
      | ok d =>
        show Inv ((match unserializable_from_dict d with
          | .error err => ((Except.error err : Except PyErr (Option Entity)), w)
          | .ok obj => (Except.ok (some obj), w)).2)
        cases unserializable_from_dict d with
        | error err => exact h
        | ok obj => exact h
    | none => exact hmiss
  · rw [if_neg hg]
    exact hmiss2

/-- A failing commit rolls the session back to the committed state, which
restores the invariant whatever the pending table change was. -/
theorem Inv_rollback_w1 (w : World) (tb : String) (R : List Entity)
    (h : Inv w) : Inv (rollback { w with tx := tset w.tx tb R }) := by
  refine Inv_of_fields w _ rfl ?_ rfl h
  exact h.1.symm

/-- Dropping a cache entry preserves the invariant. -/
theorem Inv_whdel (w : World) (tb : String) (k : Int) (h : Inv w) :
    Inv (whdel w tb k) := by
  obtain ⟨h1, h2, h3, h4⟩ := h
  match hr : w.redis with
  | none =>
    unfold whdel
    rw [hr]
    exact ⟨h1, h2, h3, h4⟩
  | some r =>
    rw [hr] at h3
    simp only [Option.getD_some] at h3
    have hw : whdel w tb k = { w with redis := some (hdel r tb k) } := by
      unfold whdel
      rw [hr]
    rw [hw]
    refine ⟨h1, h2, by simpa using nodup_keys_hdel r tb k h3, ?_⟩
    intro p hp
    simp only [Option.getD_some] at hp
    have hm := mem_hdel r tb k p hp
    exact entryOK_of_committed_eq w _ p rfl (h4 p (by rw [hr]; simpa using hm.1))

theorem queryCommitted_tset (w w2 : World) (tb : String) (R : List Entity)
    (h2c : w2.committed = tset w.committed tb R) (tb' : String) (k' : Int) :
    queryCommitted w2 tb' k' =
      if tb' = tb then R.find? (fun e => kidOf e == some k')
      else queryCommitted w tb' k' := by
  unfold queryCommitted
  rw [h2c, tget_tset]
  by_cases h : tb' = tb
  · rw [if_pos h, if_pos h]
  · rw [if_neg h, if_neg h]

/-- `save(with_commit=True, use_cache=True)` on a well-formed record
satisfying `savePre` preserves the invariant: the record replaces the rows
it identifies by primary key without changing their business key — the
refreshed cache entry then equals the committed row, which is the record
itself — or inserts a keyless copy the kid-keyed cache never sees. -/
theorem Inv_save (w : World) (tb : String) (e : Entity)
    (hwfe : wfEntity e = true) (hpre : savePre w tb e = true) (h : Inv w) :
    Inv (save w tb e true true).2 := by
  obtain ⟨hwf', hkcase⟩ := wf_remove_kid e hwfe
  have h1 := h.1
  have h2 := h.2.1
  have h3 := h.2.2.1
  have h4 := h.2.2.2
  show Inv ((match commit { w with
      tx := tset w.tx tb (mergeRows (tget w.tx tb) (remove_kid_if_none e)) } with
    | .error err => ((Except.error err : Except PyErr Unit),
        rollback { w with
          tx := tset w.tx tb (mergeRows (tget w.tx tb) (remove_kid_if_none e)) })
    | .ok w2 =>
      match kidTruthy (remove_kid_if_none e) with
      | some k => ((Except.ok () : Except PyErr Unit),
          whset w2 tb k (to_serializable_dict (remove_kid_if_none e)))
      | none => (Except.ok (), w2)).2)
  cases hcm : commit { w with
      tx := tset w.tx tb (mergeRows (tget w.tx tb) (remove_kid_if_none e)) } with
  | error err => exact Inv_rollback_w1 w tb _ h
  | ok w2 =>
    have hok : commitOK (tset w.tx tb
        (mergeRows (tget w.tx tb) (remove_kid_if_none e))) = true := by
      unfold commit at hcm
      by_cases hok : commitOK (tset w.tx tb
          (mergeRows (tget w.tx tb) (remove_kid_if_none e))) = true
      · exact hok
      · rw [if_neg hok] at hcm
        exact Except.noConfusion hcm
    have hw2 : w2 = { w with
        tx := tset w.tx tb (mergeRows (tget w.tx tb) (remove_kid_if_none e)),
        committed := tset w.tx tb (mergeRows (tget w.tx tb) (remove_kid_if_none e)),
        locks := [] } := by
      unfold commit at hcm
      rw [if_pos hok] at hcm
      exact (Except.ok.inj hcm).symm
    subst hw2
    have hTX : tset w.tx tb (mergeRows (tget w.tx tb) (remove_kid_if_none e)) =
        tset w.committed tb
          (mergeRows (tget w.committed tb) (remove_kid_if_none e)) := by
      rw [h1]
    have hwfR : (mergeRows (tget w.committed tb) (remove_kid_if_none e)).all
        wfEntity = true := by
      rw [List.all_eq_true]
      intro x hx
      unfold mergeRows at hx
      match hio : idOf (remove_kid_if_none e) with
      | some i =>
        rw [hio] at hx
        rcases mem_mergeByPk _ i _ x hx with hc | hc
        · exact (List.all_eq_true.mp (all_wf_tget _ tb h2)) x hc
        · rw [hc]
          exact hwf'
      | none =>
        rw [hio] at hx
        rcases List.mem_append.mp hx with hc | hc
        · exact (List.all_eq_true.mp (all_wf_tget _ tb h2)) x hc
        · rw [List.mem_singleton.mp hc]
          exact wfEntity_setId _ _ hwf'
    have hwfT : wfTables (tset w.tx tb
        (mergeRows (tget w.tx tb) (remove_kid_if_none e))) = true := by
      rw [h1]
      exact wfTables_tset _ tb _ h2 hwfR
    rcases hkcase with ⟨hko, hkt, hkn⟩ | ⟨k, hk0, hko, hkt, hkn⟩
    · -- no business key: the merged table is invisible to every kid lookup
      rw [hkt]
      refine ⟨rfl, hwfT, h3, ?_⟩
      intro p hp
      have hrow := h4 p hp
      unfold entryOK at hrow ⊢
      rw [queryCommitted_tset w _ tb _ hTX p.1.1 p.1.2]
      by_cases htb : p.1.1 = tb
      · rw [if_pos htb]
        have hfix : (mergeRows (tget w.committed tb) (remove_kid_if_none e)).find?
            (fun r => kidOf r == some p.1.2) =
            (tget w.committed tb).find? (fun r => kidOf r == some p.1.2) := by
          unfold mergeRows
          match hio : idOf (remove_kid_if_none e) with
          | some i =>
            apply mergeByPk_find?_of_false
            · show (kidOf (remove_kid_if_none e) == some p.1.2) = false
              exact beq_eq_false_iff_ne.mpr
                fun hc => Option.noConfusion (hko.symm.trans hc)
            · intro r hr hri
              show (kidOf r == some p.1.2) = false
              have hprei := hpre
              unfold savePre at hprei
              simp only [hio] at hprei
              rw [← h1] at hr
              have hh := (List.all_eq_true.mp hprei) r hr
              rw [hri] at hh
              have hb : ((some i != some i) : Bool) = false := by simp
              rw [hb, Bool.false_or, hko] at hh
              have hrn : kidOf r = none := beq_iff_eq.mp hh
              exact beq_eq_false_iff_ne.mpr
                fun hc => Option.noConfusion (hrn.symm.trans hc)
          | none =>
            apply find?_append_singleton_false
            show (kidOf (setId (remove_kid_if_none e)
                (nextPk (tget w.committed tb))) == some p.1.2) = false
            have hsk : kidOf (setId (remove_kid_if_none e)
                (nextPk (tget w.committed tb))) = none := by
              rw [kidOf_setId]
              exact hko
            exact beq_eq_false_iff_ne.mpr
              fun hc => Option.noConfusion (hsk.symm.trans hc)
        rw [hfix]
        unfold queryCommitted at hrow
        rw [← htb]
        exact hrow
      · rw [if_neg htb]
        exact hrow
    · -- truthy key k: primary-key merge, then refresh the entry for k
      have hnd : nodupB (kidsOf
          (mergeRows (tget w.committed tb) (remove_kid_if_none e))) = true := by
        have hh := commitOK_tget _ tb hok
        rw [tget_tset, if_pos rfl, h1] at hh
        exact hh
      have hio' : ∃ i, idOf (remove_kid_if_none e) = some i := by
        match hio : idOf (remove_kid_if_none e) with
        | some i => exact ⟨i, rfl⟩
        | none =>
          exfalso
          unfold savePre at hpre
          simp only [hio] at hpre
          rw [hko] at hpre
          exact Bool.noConfusion hpre
      obtain ⟨i, hio⟩ := hio'
      have hall : ∀ r ∈ tget w.committed tb, idOf r = some i →
          kidOf r = some k := by
        intro r hr hri
        have hprei := hpre
        unfold savePre at hprei
        simp only [hio] at hprei
        rw [← h1] at hr
        have hh := (List.all_eq_true.mp hprei) r hr
        rw [hri] at hh
        have hb : ((some i != some i) : Bool) = false := by simp
        rw [hb, Bool.false_or, hko] at hh
        exact beq_iff_eq.mp hh
      have hM : mergeRows (tget w.committed tb) (remove_kid_if_none e) =
          mergeByPk (tget w.committed tb) i (remove_kid_if_none e) := by
        unfold mergeRows
        rw [hio]
      have hndM : nodupB (kidsOf (mergeByPk (tget w.committed tb) i
          (remove_kid_if_none e))) = true := by
        rw [← hM]
        exact hnd
      have hfindk : (mergeByPk (tget w.committed tb) i
          (remove_kid_if_none e)).find? (fun r => kidOf r == some k) =
          some (remove_kid_if_none e) :=
        find?_kid_of_nodup _ _ k (mergeByPk_mem_self _ i _) hko hndM
      have hother : ∀ k' : Int, k' ≠ k →
          (mergeByPk (tget w.committed tb) i (remove_kid_if_none e)).find?
            (fun r => kidOf r == some k') =
          (tget w.committed tb).find? (fun r => kidOf r == some k') := by
        intro k' hne
        apply mergeByPk_find?_of_false
        · show (kidOf (remove_kid_if_none e) == some k') = false
          exact beq_eq_false_iff_ne.mpr
            fun hc => hne.symm (Option.some.inj (hko.symm.trans hc))
        · intro r hr hri
          show (kidOf r == some k') = false
          exact beq_eq_false_iff_ne.mpr
            fun hc => hne.symm (Option.some.inj ((hall r hr hri).symm.trans hc))
      rw [hkt]
      match hr : w.redis with
      | none =>
        show Inv ({ committed := tset w.tx tb (mergeRows (tget w.tx tb) (remove_kid_if_none e)),
                    tx := tset w.tx tb (mergeRows (tget w.tx tb) (remove_kid_if_none e)),
                    locks := [], queries := w.queries, redis := none } : World)
        refine ⟨rfl, hwfT, by simp, ?_⟩
        intro p hp
        simp at hp
      | some r =>
        rw [hr] at h3
        simp only [Option.getD_some] at h3
        show Inv ({ committed := tset w.tx tb (mergeRows (tget w.tx tb) (remove_kid_if_none e)),
                    tx := tset w.tx tb (mergeRows (tget w.tx tb) (remove_kid_if_none e)),
                    locks := [], queries := w.queries,
                    redis := some (hset r tb k (CacheVal.jsonOf (to_serializable_dict (remove_kid_if_none e)))) } : World)
        refine ⟨rfl, hwfT, by simpa using nodup_keys_hset r tb k _ h3, ?_⟩
        intro p hp
        simp only [Option.getD_some] at hp
        rcases mem_hset r tb k _ h3 p hp with hcase | hcase
        · rw [hcase]
          refine entryOK_self _ tb k (remove_kid_if_none e) ?_
          rw [queryCommitted_tset w _ tb _ hTX tb k, if_pos rfl, hM]
          exact hfindk
        · have hrow := h4 p (by rw [hr]; simpa using hcase.1)
          unfold entryOK at hrow ⊢
          rw [queryCommitted_tset w _ tb _ hTX p.1.1 p.1.2]
          by_cases htb : p.1.1 = tb
          · rw [if_pos htb, hM]
            have hkne : p.1.2 ≠ k := by
              intro hc
              apply hcase.2
              have hp1 : p.1 = (p.1.1, p.1.2) := rfl
              rw [hp1, htb, hc]
            rw [hother p.1.2 hkne]
            unfold queryCommitted at hrow
            rw [← htb]
            exact hrow
          · rw [if_neg htb]
            exact hrow

/-- Core of the `add` preservation proof: inserting a well-formed row and,
on commit, caching exactly that row (when its kid is non-null) preserves
the invariant; insertion of a duplicate business key fails the UNIQUE check
at commit and rolls back. -/
theorem Inv_add_row (w : World) (tb : String) (x : Entity)
    (hwfx : wfEntity x = true) (h : Inv w) :
    Inv ((match commit { w with tx := tset w.tx tb (tget w.tx tb ++ [x]) } with
      | .error err => ((Except.error err : Except PyErr Unit),
          rollback { w with tx := tset w.tx tb (tget w.tx tb ++ [x]) })
      | .ok w2 =>
        match kidNotNone x with
        | some k => ((Except.ok () : Except PyErr Unit),
            whset w2 tb k (to_serializable_dict x))
        | none => (Except.ok (), w2)).2) := by
  have hkcase := wfEntity_kid_cases x hwfx
  have h1 := h.1
  have h2 := h.2.1
  have h3 := h.2.2.1
  have h4 := h.2.2.2
  cases hcm : commit { w with tx := tset w.tx tb (tget w.tx tb ++ [x]) } with
  | error err => exact Inv_rollback_w1 w tb _ h
  | ok w2 =>
    have hok : commitOK (tset w.tx tb (tget w.tx tb ++ [x])) = true := by
      unfold commit at hcm
      by_cases hok : commitOK (tset w.tx tb (tget w.tx tb ++ [x])) = true
      · exact hok
      · rw [if_neg hok] at hcm
        exact Except.noConfusion hcm
    have hw2 : w2 = { w with
        tx := tset w.tx tb (tget w.tx tb ++ [x]),
        committed := tset w.tx tb (tget w.tx tb ++ [x]),
        locks := [] } := by
      unfold commit at hcm
      rw [if_pos hok] at hcm
      exact (Except.ok.inj hcm).symm
    subst hw2
    have hTX : tset w.tx tb (tget w.tx tb ++ [x]) =
        tset w.committed tb (tget w.committed tb ++ [x]) := by
      rw [h1]
    have hwfR : (tget w.committed tb ++ [x]).all wfEntity = true := by
      rw [List.all_append]
      simp only [Bool.and_eq_true]
      exact ⟨all_wf_tget _ tb h2, by simp [hwfx]⟩
    have hwfT : wfTables (tset w.tx tb (tget w.tx tb ++ [x])) = true := by
      rw [h1]
      exact wfTables_tset _ tb _ h2 hwfR
    have hpres : ∀ (k' : Int) (row : Entity),
        (tget w.committed tb).find? (fun y => kidOf y == some k') = some row →
        (tget w.committed tb ++ [x]).find?
          (fun y => kidOf y == some k') = some row := by
      intro k' row hrow
      rw [List.find?_append, hrow]
      rfl
    rcases hkcase with ⟨hko, hkt, hkn⟩ | ⟨k, hk0, hko, hkt, hkn⟩
    · rw [hkn]
      refine ⟨rfl, hwfT, h3, ?_⟩
      intro p hp
      have hrow := h4 p hp
      unfold entryOK at hrow ⊢
      rw [queryCommitted_tset w _ tb _ hTX p.1.1 p.1.2]
      by_cases htb : p.1.1 = tb
      · rw [if_pos htb]
        match hq : queryCommitted w p.1.1 p.1.2 with
        | some row =>
          rw [hq] at hrow
          have hfind : (tget w.committed tb).find?
              (fun y => kidOf y == some p.1.2) = some row := by
            unfold queryCommitted at hq
            rw [← htb]
            exact hq
          rw [hpres p.1.2 row hfind]
          exact hrow
        | none => rw [hq] at hrow; exact Option.noConfusion hrow
      · rw [if_neg htb]
        exact hrow
    · rw [hkn]
      -- the UNIQUE check passed, so k was fresh in the table
      have hnd : nodupB (kidsOf (tget w.committed tb ++ [x])) = true := by
        have hh := commitOK_tget _ tb hok
        rw [tget_tset] at hh
        rw [if_pos rfl] at hh
        rw [h1] at hh
        exact hh
      have hfresh : (tget w.committed tb).find? (fun y => kidOf y == some k) = none := by
        apply find?_kid_none_of_contains_false
        apply nodupB_append_singleton
        have hkids : kidsOf (tget w.committed tb ++ [x]) =
            kidsOf (tget w.committed tb) ++ [k] := by
          unfold kidsOf
          rw [List.filterMap_append]
          simp [hko]
        rw [← hkids]
        exact hnd
      have hself : (tget w.committed tb ++ [x]).find?
          (fun y => kidOf y == some k) = some x := by
        rw [List.find?_append, hfresh]
        simp [hko]
      match hr : w.redis with
      | none =>
        show Inv ({ committed := tset w.tx tb (tget w.tx tb ++ [x]),
                    tx := tset w.tx tb (tget w.tx tb ++ [x]),
                    locks := [], queries := w.queries, redis := none } : World)
        refine ⟨rfl, hwfT, by simp, ?_⟩
        intro p hp
        simp at hp
      | some r =>
        rw [hr] at h3
        simp only [Option.getD_some] at h3
        show Inv ({ committed := tset w.tx tb (tget w.tx tb ++ [x]),
                    tx := tset w.tx tb (tget w.tx tb ++ [x]),
                    locks := [], queries := w.queries,
                    redis := some (hset r tb k (CacheVal.jsonOf (to_serializable_dict x))) } : World)
        refine ⟨rfl, hwfT, by simpa using nodup_keys_hset r tb k _ h3, ?_⟩
        intro p hp
        simp only [Option.getD_some] at hp
        rcases mem_hset r tb k _ h3 p hp with hcase | hcase
        · rw [hcase]
          refine entryOK_self _ tb k x ?_
          rw [queryCommitted_tset w _ tb _ hTX tb k, if_pos rfl]
          exact hself
        · have hrow := h4 p (by rw [hr]; simpa using hcase.1)
          unfold entryOK at hrow ⊢
          rw [queryCommitted_tset w _ tb _ hTX p.1.1 p.1.2]
          by_cases htb : p.1.1 = tb
          · rw [if_pos htb]
            match hq : queryCommitted w p.1.1 p.1.2 with
            | some row =>
              rw [hq] at hrow
              have hfind : (tget w.committed tb).find?
                  (fun y => kidOf y == some p.1.2) = some row := by
                unfold queryCommitted at hq
                rw [← htb]
                exact hq
              rw [hpres p.1.2 row hfind]
              exact hrow
            | none => rw [hq] at hrow; exact Option.noConfusion hrow
          · rw [if_neg htb]
            exact hrow

/-- `add(with_commit=True, use_cache=True)` on a well-formed record without
a pre-assigned surrogate key preserves the invariant: the flush assigns the
autoincrement key to the record itself, so the committed row and the cached
serialization coincide. -/
theorem Inv_add (w : World) (tb : String) (e : Entity)
    (hwfe : wfEntity e = true)
    (hid : (idOf (remove_kid_if_none e)).isNone = true) (h : Inv w) :
    Inv (add w tb e true true).2 := by
  have hid' : idOf (remove_kid_if_none e) = none := by
    rw [Option.isNone_iff_eq_none] at hid
    exact hid
  have hwf' : wfEntity (remove_kid_if_none e) = true := (wf_remove_kid e hwfe).1
  have hx : assignPk (tget w.tx tb) (remove_kid_if_none e) =
      setId (remove_kid_if_none e) (nextPk (tget w.tx tb)) := by
    unfold assignPk
    rw [hid']
  show Inv ((match commit { w with
      tx := tset w.tx tb (tget w.tx tb ++
        [assignPk (tget w.tx tb) (remove_kid_if_none e)]) } with
    | .error err => ((Except.error err : Except PyErr Unit),
        rollback { w with
          tx := tset w.tx tb (tget w.tx tb ++
            [assignPk (tget w.tx tb) (remove_kid_if_none e)]) })
    | .ok w2 =>
      match kidNotNone (assignPk (tget w.tx tb) (remove_kid_if_none e)) with
      | some k => ((Except.ok () : Except PyErr Unit),
          whset w2 tb k (to_serializable_dict
            (assignPk (tget w.tx tb) (remove_kid_if_none e))))
      | none => (Except.ok (), w2)).2)
  rw [hx]
  exact Inv_add_row w tb _ (wfEntity_setId _ _ hwf') h

/-- `delete(with_commit=True)` on a well-formed record preserves the
invariant: the removed row's cache entry is purged, other keys' first rows
are untouched by the removal. -/
theorem Inv_delete (w : World) (tb : String) (e : Entity)
    (hwfe : wfEntity e = true) (h : Inv w) : Inv (delete w tb e true).2 := by
  obtain ⟨hwf', hkcase⟩ := wf_remove_kid e hwfe
  have h1 := h.1
  have h2 := h.2.1
  have h3 := h.2.2.1
  have h4 := h.2.2.2
  show Inv ((match commit { w with
      tx := tset w.tx tb (removeRow (tget w.tx tb) (remove_kid_if_none e)) } with
    | .error err => ((Except.error err : Except PyErr Unit),
        rollback { w with
          tx := tset w.tx tb (removeRow (tget w.tx tb) (remove_kid_if_none e)) })
    | .ok w2 =>
      match kidTruthy (remove_kid_if_none e) with
      | some k => ((Except.ok () : Except PyErr Unit), whdel w2 tb k)
      | none => (Except.ok (), w2)).2)
  cases hcm : commit { w with
      tx := tset w.tx tb (removeRow (tget w.tx tb) (remove_kid_if_none e)) } with
  | error err => exact Inv_rollback_w1 w tb _ h
  | ok w2 =>
    have hw2 : w2 = { w with
        tx := tset w.tx tb (removeRow (tget w.tx tb) (remove_kid_if_none e)),
        committed := tset w.tx tb (removeRow (tget w.tx tb) (remove_kid_if_none e)),
        locks := [] } := by
      unfold commit at hcm
      by_cases hok : commitOK (tset w.tx tb
          (removeRow (tget w.tx tb) (remove_kid_if_none e))) = true
      · rw [if_pos hok] at hcm
        exact (Except.ok.inj hcm).symm
      · rw [if_neg hok] at hcm
        exact Except.noConfusion hcm
    subst hw2
    have hTX : tset w.tx tb (removeRow (tget w.tx tb) (remove_kid_if_none e)) =
        tset w.committed tb (removeRow (tget w.committed tb) (remove_kid_if_none e)) := by
      rw [h1]
    have hwfR : (removeRow (tget w.committed tb) (remove_kid_if_none e)).all
        wfEntity = true := by
      unfold removeRow
      match kidOf (remove_kid_if_none e) with
      | some k => exact all_eraseP _ _ _ (all_wf_tget _ tb h2)
      | none => exact all_eraseP _ _ _ (all_wf_tget _ tb h2)
    have hwfT : wfTables (tset w.tx tb
        (removeRow (tget w.tx tb) (remove_kid_if_none e))) = true := by
      rw [h1]
      exact wfTables_tset _ tb _ h2 hwfR
    rcases hkcase with ⟨hko, hkt, hkn⟩ | ⟨k, hk0, hko, hkt, hkn⟩
    · -- keyless record: removal by equality cannot shadow any cached key
      rw [hkt]
      refine ⟨rfl, hwfT, h3, ?_⟩
      intro p hp
      have hrow := h4 p hp
      unfold entryOK at hrow ⊢
      rw [queryCommitted_tset w _ tb _ hTX p.1.1 p.1.2]
      by_cases htb : p.1.1 = tb
      · rw [if_pos htb]
        unfold removeRow
        rw [hko]
        rw [find?_eraseP_of_disjoint _ _ _ ?hdisj]
        case hdisj =>
          intro x hx
          have hxe : x = remove_kid_if_none e := by simpa using hx
          rw [beq_eq_false_iff_ne]
          rw [hxe, hko]
          exact Option.noConfusion
        unfold queryCommitted at hrow
        rw [← htb]
        exact hrow
      · rw [if_neg htb]
        exact hrow
    · rw [hkt]
      match hr : w.redis with
      | none =>
        show Inv ({ committed := tset w.tx tb (removeRow (tget w.tx tb) (remove_kid_if_none e)),
                    tx := tset w.tx tb (removeRow (tget w.tx tb) (remove_kid_if_none e)),
                    locks := [], queries := w.queries, redis := none } : World)
        refine ⟨rfl, hwfT, by simp, ?_⟩
        intro p hp
        simp at hp
      | some r =>
        rw [hr] at h3
        simp only [Option.getD_some] at h3
        show Inv ({ committed := tset w.tx tb (removeRow (tget w.tx tb) (remove_kid_if_none e)),
                    tx := tset w.tx tb (removeRow (tget w.tx tb) (remove_kid_if_none e)),
                    locks := [], queries := w.queries,
                    redis := some (hdel r tb k) } : World)
        refine ⟨rfl, hwfT, by simpa using nodup_keys_hdel r tb k h3, ?_⟩
        intro p hp
        simp only [Option.getD_some] at hp
        have hm := mem_hdel r tb k p hp
        have hrow := h4 p (by rw [hr]; simpa using hm.1)
        unfold entryOK at hrow ⊢
        rw [queryCommitted_tset w _ tb _ hTX p.1.1 p.1.2]
        by_cases htb : p.1.1 = tb
        · rw [if_pos htb]
          unfold removeRow
          rw [hko]
          have hkne : p.1.2 ≠ k := by
            intro hc
            apply hm.2
            have hp1 : p.1 = (p.1.1, p.1.2) := rfl
            rw [hp1, htb, hc]
          rw [find?_eraseP_of_disjoint _ _ _ ?hdisj2]
          case hdisj2 =>
            intro x hx
            have hxk : kidOf x = some k := by simpa using hx
            rw [beq_eq_false_iff_ne, hxk]
            intro hc
            exact hkne (Option.some.inj hc).symm
          unfold queryCommitted at hrow
          rw [← htb]
          exact hrow
        · rw [if_neg htb]
          exact hrow

/-- C2 amended: restricted to write operations with the default flags
(`with_commit=True, use_cache=True`) on well-formed records (business key
NULL/absent or a truthy integer, at most one kid column) — freshly created
records without a pre-assigned surrogate key for `add`, and for `save`
records that either carry the primary key of the rows they replace without
changing their business key (the read-modify-write update pattern) or are
keyless — the claimed invariant holds: after any sequence of save, add,
delete and get_by_kid operations from an invariant-satisfying state (e.g.
empty store, empty cache), every cache entry present under (table, kid)
equals the serialization of the last committed state of the corresponding
store row.  The counterexample shows the unrestricted claim fails both for
`use_cache=False` writes and for a default-flag `save` of a transient
record, whose inserted copy receives the store-assigned `id` the cached
serialization lacks. -/
theorem korm_c2_amended (w : World) (ops : List KOp)
    (hwf : opsWf w ops = true) (hinv : Inv w) :
    Inv (runOps w ops) ∧ CacheCoherent (runOps w ops) := by
  have main : ∀ (ops : List KOp) (w : World),
      opsWf w ops = true → Inv w → Inv (runOps w ops) := by
    intro ops
    induction ops with
    | nil => intro w _ h; exact h
    | cons op rest ih =>
      intro w hwfs h
      simp only [opsWf, Bool.and_eq_true] at hwfs
      rw [runOps]
      apply ih _ hwfs.2
      have h1 := hwfs.1
      cases op with
      | opGet tb k ffu uc => exact Inv_get w tb k ffu uc h
      | opSave tb e =>
        simp only [wfOpIn, Bool.and_eq_true] at h1
        exact Inv_save w tb e h1.1 h1.2 h
      | opAdd tb e =>
        simp only [wfOpIn, Bool.and_eq_true] at h1
        exact Inv_add w tb e h1.1 h1.2 h
      | opDelete tb e =>
        exact Inv_delete w tb e h1 h
  exact ⟨main ops w hwf hinv, (main ops w hwf hinv).2.2.2⟩

/-- C2 amended witness: an add, a primary-key-carrying update save, and a
cached read, from the empty initial state. -/
theorem korm_c2_amended_witness :
    (opsWf ⟨[], [], [], 0, some []⟩
        [KOp.opAdd "tab" [("kid", KValue.vInt 7)],
         KOp.opSave "tab"
           [("id", KValue.vInt 1), ("kid", KValue.vInt 7), ("v", KValue.vInt 3)],
         KOp.opGet "tab" 7 false true] = true) ∧
    Inv (runOps ⟨[], [], [], 0, some []⟩
      [KOp.opAdd "tab" [("kid", KValue.vInt 7)],
       KOp.opSave "tab"
         [("id", KValue.vInt 1), ("kid", KValue.vInt 7), ("v", KValue.vInt 3)],
       KOp.opGet "tab" 7 false true]) ∧
    CacheCoherent (runOps ⟨[], [], [], 0, some []⟩
      [KOp.opAdd "tab" [("kid", KValue.vInt 7)],
       KOp.opSave "tab"
         [("id", KValue.vInt 1), ("kid", KValue.vInt 7), ("v", KValue.vInt 3)],
       KOp.opGet "tab" 7 false true]) :=
  ⟨by decide,
   (korm_c2_amended _ _ (by decide) (by decide)).1,
   (korm_c2_amended _ _ (by decide) (by decide)).2⟩


end KBox
